import Mathlib

/-!
Verification development for a de Bruijn graph genome assembler.

The Python source (DBGnode.py, DBGraph.py) is shallowly embedded here:

* Python `dict`s are insertion-ordered association lists (`dGet`, `dSet`,
  `dPop`, `dUpd` mirror lookup, assignment, `pop`, and in-place mutation
  of a value).
* `DBGnode` objects live in a heap keyed by stable integer ids
  (`DBGraph.heap`); Python object identity becomes id equality.
  `edges_to` holds the *successor* map (the code wires
  `kmer.add_edge_to(successor)`), `edges_from` the predecessor map.
* The graph's `nodes` dict maps sequence strings (as `List Char`) to ids.
* Exceptions are modelled with `PyErr`; note that the length-mismatch
  `raise ValueError(... str(self.kmersize) ...)` in `add_kmers` actually
  raises `AttributeError` because the attribute `kmersize` does not exist
  (the field is `kmerlen`), and `extend_prev` raises `AttributeError` on
  its misspelled attribute `self.efroedges_fromm`.
* The `while True` loop in `simplify` is given explicit fuel; we prove
  fuel `edgeTot g + 1` always suffices.
-/

namespace DBG

/-! ### Python dicts as insertion-ordered association lists -/

/-- Python `d.get(k)` / `d[k]`: first (unique) binding of a key. -/
def dGet {κ α : Type} [DecidableEq κ] : List (κ × α) → κ → Option α
  | [], _ => none
  | (k, v) :: t, q => if q = k then some v else dGet t q

/-- Python `d[k] = v`: replace in place if the key exists, else append
(insertion order is preserved, as for CPython dicts). -/
def dSet {κ α : Type} [DecidableEq κ] : List (κ × α) → κ → α → List (κ × α)
  | [], q, v => [(q, v)]
  | (k, w) :: t, q, v => if q = k then (q, v) :: t else (k, w) :: dSet t q v

/-- Python `d.pop(k, default)`: remove the binding of `k` if present. -/
def dPop {κ α : Type} [DecidableEq κ] : List (κ × α) → κ → List (κ × α)
  | [], _ => []
  | (k, w) :: t, q => if q = k then t else (k, w) :: dPop t q

/-- Mutate the value stored under a key in place (no-op if absent);
models mutation of the Python object a dict value refers to. -/
def dUpd {κ α : Type} [DecidableEq κ] : List (κ × α) → κ → (α → α) → List (κ × α)
  | [], _, _ => []
  | (k, w) :: t, q, f => if q = k then (q, f w) :: t else (k, w) :: dUpd t q f

/-- The keys of a dict, in insertion order. -/
def dKeys {κ α : Type} (l : List (κ × α)) : List κ := l.map Prod.fst



/-! ### Data model (DBGnode.py `__init__`, DBGraph.py `__init__`) -/

/-- A base sequence, modelling a Python string of bases. -/
abbrev Seq := List Char

/-- A weighted adjacency map: node id to edge weight (a Python dict
keyed by `DBGnode` object identity). -/
abbrev WMap := List (Nat × Nat)

/-- `DBGnode`: sequence plus the two adjacency dicts.  In the source,
`edges_to` is used as the *successor* (outgoing) map — `add_kmers` runs
`kmer.add_edge_to(self.nodes[pto])` for successor candidates `pto` — and
`edges_from` as the predecessor (incoming) map. -/
structure DBGnode where
  seq : Seq
  edges_to : WMap
  edges_from : WMap
deriving DecidableEq, Repr

/-- `DBGraph`: heap of allocated node objects (id-keyed arena modelling
Python object identity), the `nodes` dict from sequence to node, the
fixed k-mer length and the `simplified` flag. -/
structure DBGraph where
  heap : List (Nat × DBGnode)
  nodes : List (Seq × Nat)
  nextId : Nat
  kmerlen : Option Nat
  simplified : Bool
deriving DecidableEq, Repr

def dummyNode : DBGnode := ⟨[], [], []⟩

def emptyGraph : DBGraph := ⟨[], [], 0, none, false⟩

/-- Dereference a node id (Python attribute access on the object). -/
def getNode (g : DBGraph) (i : Nat) : DBGnode := (dGet g.heap i).getD dummyNode

/-- Mutate the node object stored under id `i` in place. -/
def updNode (g : DBGraph) (i : Nat) (f : DBGnode → DBGnode) : DBGraph :=
  { g with heap := dUpd g.heap i f }

/-! ### DBGnode operations -/

/-- `add_edge_to(eto)`: `self.edges_to[eto] = self.edges_to.get(eto, 0) + 1`. -/
def add_edge_to (g : DBGraph) (selfI eto : Nat) : DBGraph :=
  updNode g selfI fun n =>
    { n with edges_to := dSet n.edges_to eto ((dGet n.edges_to eto).getD 0 + 1) }

/-- `add_edge_from(efrom)`: `self.edges_from[efrom] = ... + 1`. -/
def add_edge_from (g : DBGraph) (selfI efrom : Nat) : DBGraph :=
  updNode g selfI fun n =>
    { n with edges_from := dSet n.edges_from efrom ((dGet n.edges_from efrom).getD 0 + 1) }

/-- The iteration order `["A", "G", "T", "C"]` used by both candidate
generators. -/
def bases : List Char := ['A', 'G', 'T', 'C']

/-- `get_potential_from`: `base + self.seq[:-1]` for each base. -/
def get_potential_from (s : Seq) : List Seq := bases.map fun b => b :: s.dropLast

/-- `get_potential_to`: `self.seq[1:] + base` for each base. -/
def get_potential_to (s : Seq) : List Seq := bases.map fun b => s.drop 1 ++ [b]

/-- Python `a.endswith(p)`. -/
def endsW (a p : Seq) : Bool := decide (p.length ≤ a.length) && decide (a.drop (a.length - p.length) = p)

/-- Python `a.startswith(p)`. -/
def startsW (a p : Seq) : Bool := decide (a.take p.length = p)

/-- The scan `for i in range(max_overlap, 0, -1): if self.seq.endswith(next.seq[:i])`
of `extend_next`, returning the largest matching `i` (0 if none). -/
def overlapLoop (a b : Seq) : Nat → Nat
  | 0 => 0
  | i + 1 => if endsW a (b.take (i + 1)) then i + 1 else overlapLoop a b i

/-- `can_extend_next`: exactly one successor, which is not `self` and has
exactly one predecessor, namely `self` (`is` identity becomes id equality). -/
def can_extend_next (g : DBGraph) (x : Nat) : Bool :=
  match (getNode g x).edges_to with
  | [(next, _)] =>
    if next = x then false
    else
      match (getNode g next).edges_from with
      | [(ef, _)] => ef = x
      | _ => false
  | _ => false

/-- `can_extend_prev`: exactly one predecessor, which is not `self` and has
exactly one successor, namely `self`. -/
def can_extend_prev (g : DBGraph) (x : Nat) : Bool :=
  match (getNode g x).edges_from with
  | [(prev, _)] =>
    if prev = x then false
    else
      match (getNode g prev).edges_to with
      | [(et, _)] => et = x
      | _ => false
  | _ => false

/-- One iteration of the re-homing loop of `extend_next`:
`self.edges_to[eto] += weight; eto.edges_from.pop(next, 0);
eto.edges_from[self] = eto.edges_from.get(self, 0) + weight`. -/
def transferStep (x next : Nat) (g : DBGraph) (p : Nat × Nat) : DBGraph :=
  updNode
    (updNode
      (updNode g x fun n =>
        { n with edges_to := dSet n.edges_to p.1 ((dGet n.edges_to p.1).getD 0 + p.2) })
      p.1 fun n => { n with edges_from := dPop n.edges_from next })
    p.1 fun n =>
      { n with edges_from := dSet n.edges_from x ((dGet n.edges_from x).getD 0 + p.2) }

/-- The overlap computed by `extend_next` from the current sequences. -/
def mergeOverlap (g : DBGraph) (x next : Nat) : Nat :=
  overlapLoop (getNode g x).seq (getNode g next).seq
    (min (getNode g x).seq.length (getNode g next).seq.length)

/-- The state after `self.seq = self.seq + next_node.seq[overlap:]` and
`self.edges_to.pop(next_node)`. -/
def mergeG2 (g : DBGraph) (x next : Nat) : DBGraph :=
  updNode
    (updNode g x fun n =>
      { n with seq := n.seq ++ (getNode g next).seq.drop (mergeOverlap g x next) })
    x fun n => { n with edges_to := dPop n.edges_to next }

/-- The mutation body of `extend_next` once the precondition holds and the
unique successor `next` has been unpacked: sequence extension, edge
removal, the re-homing loop over `next_node.edges_to.items()` (which the
loop itself never mutates), and the final clearing of both of the
retired node's dicts. -/
def doMerge (g : DBGraph) (x next : Nat) : DBGraph :=
  updNode
    (((getNode (mergeG2 g x next) next).edges_to).foldl
      (transferStep x next) (mergeG2 g x next))
    next fun n => { n with edges_to := [], edges_from := [] }

/-- `extend_next`: returns the merged-away successor (to be evicted by the
caller) or `none` when `can_extend_next` fails. -/
def extend_next (g : DBGraph) (x : Nat) : DBGraph × Option Nat :=
  if can_extend_next g x then
    match (getNode g x).edges_to with
    | [(next, _)] => (doMerge g x next, some next)
    | _ => (g, none)
  else (g, none)

/-- Python errors the embedded code can raise. -/
inductive PyErr where
  | attributeError
  | valueError
deriving DecidableEq, Repr

/-- The ascending scan `for i in range(0, max_overlap): if
self.seq.startswith(previous.seq[i:])` of `extend_prev`: first matching
index, 0 if none matches. -/
def prevOverlapLoop (a b : Seq) (maxo : Nat) : Nat :=
  match (List.range maxo).find? (fun i => startsW a (b.drop i)) with
  | some i => i
  | none => 0

/-- `extend_prev`: after the precondition check the source updates
`self.seq`, then evaluates `self.efroedges_fromm.pop(previous_node)` —
an attribute that does not exist — so Python raises `AttributeError`,
leaving the sequence already mutated.  The error carries the mutated
state. -/
def extend_prev (g : DBGraph) (x : Nat) : Except (PyErr × DBGraph) (DBGraph × Option Nat) :=
  if can_extend_prev g x then
    match (getNode g x).edges_from with
    | [(prev, _)] =>
      let xs := (getNode g x).seq
      let ps := (getNode g prev).seq
      let o := prevOverlapLoop xs ps (min xs.length ps.length)
      let g1 := updNode g x fun n => { n with seq := ps.take o ++ n.seq }
      .error (PyErr.attributeError, g1)
    | _ => .ok (g, none)
  else .ok (g, none)

/-! ### DBGraph operations -/

/-- The body of the `for pto in kmer.get_potential_to()` loop:
`self.nodes[pto].add_edge_from(kmer); kmer.add_edge_to(self.nodes[pto])`. -/
def wireTo (g : DBGraph) (kid : Nat) (pto : Seq) : DBGraph :=
  match dGet g.nodes pto with
  | some pid => add_edge_to (add_edge_from g pid kid) kid pid
  | none => g

/-- The body of the `for pfrom in kmer.get_potential_from()` loop:
`self.nodes[pfrom].add_edge_to(kmer); kmer.add_edge_from(self.nodes[pfrom])`. -/
def wireFrom (g : DBGraph) (kid : Nat) (pfrom : Seq) : DBGraph :=
  match dGet g.nodes pfrom with
  | some pid => add_edge_from (add_edge_to g pid kid) kid pid
  | none => g

/-- `if kmer_s not in self.nodes.keys(): self.nodes[kmer_s] = DBGnode(kmer_s)`:
allocate a fresh node object and register it. -/
def insertIfNew (g : DBGraph) (ks : Seq) : DBGraph :=
  if (dGet g.nodes ks).isSome then g
  else
    { g with
      heap := g.heap ++ [(g.nextId, ⟨ks, [], []⟩)],
      nodes := dSet g.nodes ks g.nextId,
      nextId := g.nextId + 1 }

/-- Processing of one length-checked k-mer inside `add_kmers`: insert the
node if new, then wire edges against the 4+4 overlap candidates
(candidates are generated from `kmer.seq`, the node's own sequence). -/
def processKmer (g : DBGraph) (ks : Seq) : DBGraph :=
  let g1 := insertIfNew g ks
  match dGet g1.nodes ks with
  | some kid =>
    let kseq := (getNode g1 kid).seq
    let g2 := (get_potential_to kseq).foldl (fun h p => wireTo h kid p) g1
    (get_potential_from kseq).foldl (fun h p => wireFrom h kid p) g2
  | none => g1

/-- The `for kmer_s in kmers.keys()` loop of `add_kmers` with the length
check.  On a mismatch the source executes
`raise ValueError("..." + str(self.kmersize) + ...)`; the attribute
`kmersize` does not exist (the field is `kmerlen`), so evaluating the
message raises `AttributeError` — surfaced here together with the state
mutated so far. -/
def add_kmersGo (k : Nat) : DBGraph → List Seq → DBGraph × Option PyErr
  | g, [] => (g, none)
  | g, ks :: rest =>
    if ks.length ≠ k then (g, some PyErr.attributeError)
    else add_kmersGo k (processKmer g ks) rest

/-- `add_kmers` over the dict's key list (the counts are never read by the
source).  No-op when simplified or empty; fixes `kmerlen` from the first
key on the first ever call. -/
def add_kmers (g0 : DBGraph) (kmers : List Seq) : DBGraph × Option PyErr :=
  if g0.simplified then (g0, none)
  else
    match kmers with
    | [] => (g0, none)
    | first :: _ =>
      let g1 := if g0.kmerlen.isNone then { g0 with kmerlen := some first.length } else g0
      add_kmersGo (g1.kmerlen.getD 0) g1 kmers

/-- `count_edges`: sum of `len(node.edges_to)` over the nodes dict. -/
def count_edges (g : DBGraph) : Nat :=
  (g.nodes.map fun p => (getNode g p.2).edges_to.length).sum

/-- `count_nodes`: `len(self.nodes)`. -/
def count_nodes (g : DBGraph) : Nat := g.nodes.length

/-- `self.nodes.pop(s, None)`. -/
def popNodes (g : DBGraph) (s : Seq) : DBGraph := { g with nodes := dPop g.nodes s }

/-- Total number of recorded outgoing-edge entries over the whole heap;
the termination measure for the merge loop. -/
def edgeTot (g : DBGraph) : Nat := (g.heap.map fun p => p.2.edges_to.length).sum

/-- The `while True: next_node = node.extend_next(); ...` loop of
`simplify`, with fuel; returns the final state and the number of
successful merges, or `none` if the fuel ran out (we prove
`edgeTot g + 1` always suffices). -/
def extendLoop : Nat → DBGraph → Nat → Option (DBGraph × Nat)
  | 0, _, _ => none
  | fuel + 1, g, x =>
    match extend_next g x with
    | (_, none) => some (g, 0)
    | (g1, some r) =>
      (extendLoop fuel (popNodes g1 (getNode g1 r).seq) x).map fun p => (p.1, p.2 + 1)

/-- The `for node in list(self.nodes.values())` pass of `simplify`. -/
def simplifyPass : DBGraph → List Nat → Option (DBGraph × Nat)
  | g, [] => some (g, 0)
  | g, x :: rest =>
    match extendLoop (edgeTot g + 1) g x with
    | none => none
    | some (g1, c1) => (simplifyPass g1 rest).map fun p => (p.1, c1 + p.2)

/-- The re-keying epilogue of `simplify`: `new_nodes[node.seq] = node`
over `self.nodes.values()`, then `self.simplified = True`. -/
def rebuild (g : DBGraph) : DBGraph :=
  { g with
    nodes := g.nodes.foldl (fun m p => dSet m (getNode g p.2).seq p.2) [],
    simplified := true }

/-- `simplify` driven by an explicit snapshot order (the claims quantify
over permutations of the snapshot). -/
def simplifyWith (g : DBGraph) (order : List Nat) : Option DBGraph :=
  (simplifyPass g order).map fun p => rebuild p.1

/-- `simplify`: snapshot order is the nodes dict's value order. -/
def simplify (g : DBGraph) : Option DBGraph :=
  simplifyWith g (g.nodes.map Prod.snd)

/-! ### Concrete example states used by several claims -/

/-- String literal to base sequence. -/
def sq (x : String) : Seq := x.toList

/-- The graph after ingesting read r1's k-mers `AAA, AAG, AGG, GGG`
(k = 3, their `get_kmers` insertion order). -/
def exG1 : DBGraph := (add_kmers emptyGraph [sq "AAA", sq "AAG", sq "AGG", sq "GGG"]).1

/-- `exG1` after additionally ingesting read r2's k-mers `AGG, GGG, GGC, GCC`. -/
def exG2 : DBGraph := (add_kmers exG1 [sq "AGG", sq "GGG", sq "GGC", sq "GCC"]).1

/-- A three-node chain `AAG → AGT → GTC` (ids 0, 1, 2). -/
def exG4 : DBGraph := (add_kmers emptyGraph [sq "AAG", sq "AGT", sq "GTC"]).1

/-- The state of `exG4` after the simplify loop has processed node 1
(which absorbs node 2, growing its sequence to `AGTC`). -/
def exG7a : DBGraph := ((extendLoop (edgeTot exG4 + 1) exG4 1).getD (exG4, 0)).1

/-- The mutated state carried by the `AttributeError` that
`extend_prev` raises on node 1 of `exG4`. -/
def exG6err : DBGraph :=
  match extend_prev exG4 1 with
  | .error p => p.2
  | .ok p => p.1

/-- The result of one `simplify` run on `exG4` (snapshot order `[0,1,2]`:
node 0 absorbs 1 then 2, collapsing the chain to the contig `AAGTC`). -/
def C9G1 : DBGraph := (simplify exG4).getD emptyGraph

/-! ### Specification-level predicates -/

/-- Weight lookup with Python's `get(k, 0)` default. -/
def dGetD (l : WMap) (k : Nat) : Nat := (dGet l k).getD 0

/-- `o` is the overlap the source's descending scan is specified to find:
the largest `i ≤ min` with `a.endswith(b[:i])` (0 if none matches —
`b.take 0 = []` is a suffix of anything, so the 0 case is uniform). -/
def IsMaxOverlap (a b : Seq) (o : Nat) : Prop :=
  o ≤ min a.length b.length ∧ endsW a (b.take o) = true ∧
    ∀ i, o < i → i ≤ min a.length b.length → endsW a (b.take i) = false

/-- The symmetry invariant: `A.edges_to[B]` and `B.edges_from[A]` are the
same (present with the same weight, or both absent). -/
def Sym (g : DBGraph) : Prop :=
  ∀ a b : Nat, dGet (getNode g a).edges_to b = dGet (getNode g b).edges_from a

/-- Structural well-formedness every Python-reachable state has: the heap
is an id-keyed arena (unique ids, all below the allocation counter), the
nodes dict only references allocated objects, and every adjacency dict
has unique keys. -/
def Wf (g : DBGraph) : Prop :=
  (dKeys g.heap).Nodup ∧
  (∀ i ∈ dKeys g.heap, i < g.nextId) ∧
  (∀ s i, dGet g.nodes s = some i → (dGet g.heap i).isSome) ∧
  (∀ i n, dGet g.heap i = some n →
    (dKeys n.edges_to).Nodup ∧ (dKeys n.edges_from).Nodup)

/-- Executable check that every edge endpoint is an allocated id. -/
def keysClosed (g : DBGraph) : Bool :=
  g.heap.all fun p =>
    (p.2.edges_to.all fun q => (dGet g.heap q.1).isSome) &&
    (p.2.edges_from.all fun q => (dGet g.heap q.1).isSome)

/-- Executable check of the symmetry invariant on a concrete state. -/
def symChk (g : DBGraph) : Bool :=
  keysClosed g &&
  (g.heap.all fun p => g.heap.all fun q =>
    dGet (getNode g p.1).edges_to q.1 == dGet (getNode g q.1).edges_from p.1)

/-- Executable check of `Wf` on a concrete state. -/
def wfChk (g : DBGraph) : Bool :=
  decide (dKeys g.heap).Nodup &&
  (g.heap.all fun p => decide (p.1 < g.nextId)) &&
  (g.nodes.all fun p => (dGet g.heap p.2).isSome) &&
  (g.heap.all fun p =>
    decide (dKeys p.2.edges_to).Nodup && decide (dKeys p.2.edges_from).Nodup)

/-- A sequence over the nucleotide alphabet (spec §6 input contract). -/
def DNAseq (s : Seq) : Prop := ∀ c ∈ s, c ∈ bases

instance (s : Seq) : Decidable (DNAseq s) :=
  List.decidableBAll (fun c => c ∈ bases) s

/-- Every node object's successor dict stays within 4 entries. -/
def EdgeBound (g : DBGraph) : Prop :=
  ∀ i n, dGet g.heap i = some n → n.edges_to.length ≤ 4

/-- Every node object's successor dict has unique keys and at most 4
entries (an absent id dereferences to the empty dummy node). -/
def EdgesOK (g : DBGraph) : Prop :=
  ∀ j : Nat, (dKeys (getNode g j).edges_to).Nodup ∧ (getNode g j).edges_to.length ≤ 4

/-- The invariant carried through the ingestion phase (used for the edge
bound): heap/dict consistency, uniform DNA keys of length k, and every
recorded successor being a registered node whose sequence is one of the
4 overlap candidates. -/
def GoodG (g : DBGraph) : Prop :=
  (dKeys g.heap).Nodup ∧
  (∀ i ∈ dKeys g.heap, i < g.nextId) ∧
  (∀ s i, dGet g.nodes s = some i → ∃ n, dGet g.heap i = some n ∧ n.seq = s) ∧
  (∀ i n, dGet g.heap i = some n → dGet g.nodes n.seq = some i) ∧
  (∀ s ∈ dKeys g.nodes, ∃ k, g.kmerlen = some k ∧ s.length = k) ∧
  (∀ s ∈ dKeys g.nodes, DNAseq s) ∧
  (∀ i n, dGet g.heap i = some n → (dKeys n.edges_to).Nodup ∧
    ∀ c ∈ dKeys n.edges_to, ∃ cn, dGet g.heap c = some cn ∧
      dGet g.nodes cn.seq = some c ∧ cn.seq ∈ get_potential_to n.seq)

/-- Graph states reachable by the program on DNA input: ingestion calls
and simplification runs from the empty graph. -/
inductive ReachDNA : DBGraph → Prop where
  | init : ReachDNA emptyGraph
  | addStep (g : DBGraph) (ks : List Seq) :
      ReachDNA g → (∀ s ∈ ks, DNAseq s) → ReachDNA (add_kmers g ks).1
  | simplifyStep (g g1 : DBGraph) :
      ReachDNA g → simplify g = some g1 → ReachDNA g1

/-! ### Lemma layer -/

section MapLemmas

variable {κ α : Type} [DecidableEq κ]

@[simp] theorem dKeys_nil : dKeys ([] : List (κ × α)) = [] := rfl

@[simp] theorem dKeys_cons (k0 : κ) (v0 : α) (t : List (κ × α)) :
    dKeys ((k0, v0) :: t) = k0 :: dKeys t := rfl

theorem dGet_dSet_self (l : List (κ × α)) (k : κ) (v : α) :
    dGet (dSet l k v) k = some v := by
  induction l with
  | nil => simp [dGet, dSet]
  | cons p t ih =>
    obtain ⟨k0, v0⟩ := p
    by_cases h : k = k0 <;> simp [dGet, dSet, h, ih]

theorem dGet_dSet_ne (l : List (κ × α)) (k q : κ) (v : α) (h : q ≠ k) :
    dGet (dSet l k v) q = dGet l q := by
  induction l with
  | nil => simp [dGet, dSet, h]
  | cons p t ih =>
    obtain ⟨k0, v0⟩ := p
    by_cases h1 : k = k0
    · subst h1; simp [dGet, dSet, h]
    · by_cases h2 : q = k0 <;> simp [dGet, dSet, h1, h2, ih]

theorem dGet_none_of_not_mem_keys (l : List (κ × α)) (k : κ)
    (h : k ∉ dKeys l) : dGet l k = none := by
  induction l with
  | nil => rfl
  | cons p t ih =>
    obtain ⟨k0, v0⟩ := p
    rw [dKeys_cons, List.mem_cons] at h
    push_neg at h
    rw [dGet, if_neg h.1]
    exact ih h.2

theorem dGet_dPop_self (l : List (κ × α)) (k : κ) (h : (dKeys l).Nodup) :
    dGet (dPop l k) k = none := by
  induction l with
  | nil => simp [dGet, dPop]
  | cons p t ih =>
    obtain ⟨k0, v0⟩ := p
    rw [dKeys_cons, List.nodup_cons] at h
    by_cases h1 : k = k0
    · subst h1
      rw [dPop, if_pos rfl]
      exact dGet_none_of_not_mem_keys t k h.1
    · rw [dPop, if_neg h1, dGet, if_neg h1]
      exact ih h.2

theorem dGet_dPop_ne (l : List (κ × α)) (k q : κ) (h : q ≠ k) :
    dGet (dPop l k) q = dGet l q := by
  induction l with
  | nil => simp [dGet, dPop]
  | cons p t ih =>
    obtain ⟨k0, v0⟩ := p
    by_cases h1 : k = k0
    · subst h1; simp [dGet, dPop, if_neg h]
    · by_cases h2 : q = k0 <;> simp [dGet, dPop, h1, h2, ih]

theorem dGet_dUpd_self (l : List (κ × α)) (k : κ) (f : α → α) :
    dGet (dUpd l k f) k = (dGet l k).map f := by
  induction l with
  | nil => simp [dGet, dUpd]
  | cons p t ih =>
    obtain ⟨k0, v0⟩ := p
    by_cases h : k = k0 <;> simp [dGet, dUpd, h, ih]

theorem dGet_dUpd_ne (l : List (κ × α)) (k q : κ) (f : α → α) (h : q ≠ k) :
    dGet (dUpd l k f) q = dGet l q := by
  induction l with
  | nil => simp [dGet, dUpd]
  | cons p t ih =>
    obtain ⟨k0, v0⟩ := p
    by_cases h1 : k = k0
    · subst h1; simp [dGet, dUpd, if_neg h]
    · by_cases h2 : q = k0 <;> simp [dGet, dUpd, h1, h2, ih]

theorem dKeys_dUpd (l : List (κ × α)) (k : κ) (f : α → α) :
    dKeys (dUpd l k f) = dKeys l := by
  induction l with
  | nil => rfl
  | cons p t ih =>
    obtain ⟨k0, v0⟩ := p
    by_cases h : k = k0 <;> simp [dKeys, dUpd, h] at ih ⊢ <;> simp [ih]

theorem dUpd_absent (l : List (κ × α)) (k : κ) (f : α → α)
    (h : dGet l k = none) : dUpd l k f = l := by
  induction l with
  | nil => rfl
  | cons p t ih =>
    obtain ⟨k0, v0⟩ := p
    by_cases h1 : k = k0
    · subst h1; simp [dGet] at h
    · simp [dGet, if_neg h1] at h
      simp [dUpd, if_neg h1, ih h]

theorem dKeys_dSet_mem (l : List (κ × α)) (k : κ) (v : α)
    (h : (dGet l k).isSome) : dKeys (dSet l k v) = dKeys l := by
  induction l with
  | nil => simp [dGet] at h
  | cons p t ih =>
    obtain ⟨k0, v0⟩ := p
    by_cases h1 : k = k0
    · subst h1; simp [dKeys, dSet]
    · simp [dGet, if_neg h1] at h
      simp [dKeys, dSet, if_neg h1] at ih ⊢
      exact ih h

theorem dKeys_dSet_absent (l : List (κ × α)) (k : κ) (v : α)
    (h : dGet l k = none) : dSet l k v = l ++ [(k, v)] := by
  induction l with
  | nil => simp [dSet]
  | cons p t ih =>
    obtain ⟨k0, v0⟩ := p
    by_cases h1 : k = k0
    · subst h1; simp [dGet] at h
    · simp [dGet, if_neg h1] at h
      simp [dSet, if_neg h1, ih h]

theorem mem_keys_of_dGet_isSome (l : List (κ × α)) (k : κ)
    (h : (dGet l k).isSome) : k ∈ dKeys l := by
  by_contra hc
  rw [dGet_none_of_not_mem_keys l k hc] at h
  simp at h

theorem dGet_isSome_of_mem_keys (l : List (κ × α)) (k : κ)
    (h : k ∈ dKeys l) : (dGet l k).isSome := by
  induction l with
  | nil => simp at h
  | cons p t ih =>
    obtain ⟨k0, v0⟩ := p
    by_cases h1 : k = k0
    · simp [dGet, h1]
    · rw [dKeys_cons, List.mem_cons] at h
      rcases h with h | h
      · exact absurd h h1
      · rw [dGet, if_neg h1]
        exact ih h

theorem dKeys_dPop_subset (l : List (κ × α)) (k : κ) :
    dKeys (dPop l k) ⊆ dKeys l := by
  induction l with
  | nil => simp [dPop]
  | cons p t ih =>
    obtain ⟨k0, v0⟩ := p
    by_cases h1 : k = k0
    · rw [dPop, if_pos h1, dKeys_cons]
      exact List.subset_cons_self _ _
    · rw [dPop, if_neg h1, dKeys_cons, dKeys_cons]
      exact List.cons_subset_cons _ ih

theorem dKeys_dSet_nodup (l : List (κ × α)) (k : κ) (v : α)
    (h : (dKeys l).Nodup) : (dKeys (dSet l k v)).Nodup := by
  rcases ho : dGet l k with _ | w
  · rw [dKeys_dSet_absent l k v ho]
    have hnm : k ∉ dKeys l := fun hm =>
      absurd (dGet_isSome_of_mem_keys l k hm) (by rw [ho]; simp)
    have : dKeys (l ++ [(k, v)]) = dKeys l ++ [k] := by
      simp [dKeys]
    rw [this, List.nodup_append]
    exact ⟨h, List.nodup_singleton k, by
      intro a ha hb
      rw [List.mem_singleton] at hb
      subst hb
      exact hnm ha⟩
  · rw [dKeys_dSet_mem l k v (by rw [ho]; simp)]
    exact h

theorem dKeys_dPop_nodup (l : List (κ × α)) (k : κ)
    (h : (dKeys l).Nodup) : (dKeys (dPop l k)).Nodup := by
  induction l with
  | nil => simp [dPop]
  | cons p t ih =>
    obtain ⟨k0, v0⟩ := p
    rw [dKeys_cons, List.nodup_cons] at h
    by_cases h1 : k = k0
    · rw [dPop, if_pos h1]
      exact h.2
    · rw [dPop, if_neg h1, dKeys_cons, List.nodup_cons]
      exact ⟨fun hm => h.1 (dKeys_dPop_subset t k hm), ih h.2⟩

theorem dKeys_dUpd_nodup (l : List (κ × α)) (k : κ) (f : α → α)
    (h : (dKeys l).Nodup) : (dKeys (dUpd l k f)).Nodup := by
  rw [dKeys_dUpd]; exact h

theorem length_dPop_mem (l : List (κ × α)) (k : κ) (h : k ∈ dKeys l) :
    (dPop l k).length + 1 = l.length := by
  induction l with
  | nil => simp at h
  | cons p t ih =>
    obtain ⟨k0, v0⟩ := p
    by_cases h1 : k = k0
    · simp [dPop, h1]
    · rw [dKeys_cons, List.mem_cons] at h
      rcases h with h | h
      · exact absurd h h1
      · rw [dPop, if_neg h1]
        simp [ih h]

theorem length_dPop_absent (l : List (κ × α)) (k : κ) (h : k ∉ dKeys l) :
    dPop l k = l := by
  induction l with
  | nil => rfl
  | cons p t ih =>
    obtain ⟨k0, v0⟩ := p
    rw [dKeys_cons, List.mem_cons] at h
    push_neg at h
    rw [dPop, if_neg h.1, ih h.2]

end MapLemmas

section OpLemmas

theorem getNode_updNode_ne (g : DBGraph) (i j : Nat) (f : DBGnode → DBGnode)
    (h : j ≠ i) : getNode (updNode g i f) j = getNode g j := by
  unfold getNode updNode
  rw [dGet_dUpd_ne _ _ _ _ h]

theorem getNode_updNode_self (g : DBGraph) (i : Nat) (f : DBGnode → DBGnode)
    (n : DBGnode) (h : dGet g.heap i = some n) :
    getNode (updNode g i f) i = f n := by
  unfold getNode updNode
  rw [dGet_dUpd_self, h]
  rfl

theorem getNode_eq_of_dGet (g : DBGraph) (i : Nat) (n : DBGnode)
    (h : dGet g.heap i = some n) : getNode g i = n := by
  unfold getNode
  rw [h]
  rfl

theorem getNode_absent (g : DBGraph) (i : Nat) (h : dGet g.heap i = none) :
    getNode g i = dummyNode := by
  unfold getNode
  rw [h]
  rfl

theorem updNode_absent (g : DBGraph) (i : Nat) (f : DBGnode → DBGnode)
    (h : dGet g.heap i = none) : updNode g i f = g := by
  unfold updNode
  rw [dUpd_absent _ _ _ h]

@[simp] theorem updNode_nodes (g : DBGraph) (i : Nat) (f : DBGnode → DBGnode) :
    (updNode g i f).nodes = g.nodes := rfl

@[simp] theorem updNode_kmerlen (g : DBGraph) (i : Nat) (f : DBGnode → DBGnode) :
    (updNode g i f).kmerlen = g.kmerlen := rfl

@[simp] theorem updNode_simplified (g : DBGraph) (i : Nat) (f : DBGnode → DBGnode) :
    (updNode g i f).simplified = g.simplified := rfl

@[simp] theorem updNode_nextId (g : DBGraph) (i : Nat) (f : DBGnode → DBGnode) :
    (updNode g i f).nextId = g.nextId := rfl

theorem updNode_heap_keys (g : DBGraph) (i : Nat) (f : DBGnode → DBGnode) :
    dKeys (updNode g i f).heap = dKeys g.heap := dKeys_dUpd _ _ _

/-- Generic preservation of a projection through a fold. -/
theorem foldl_pres {α β : Type} (pr : DBGraph → β) (f : DBGraph → α → DBGraph)
    (h : ∀ g a, pr (f g a) = pr g) :
    ∀ (l : List α) (g : DBGraph), pr (l.foldl f g) = pr g := by
  intro l
  induction l with
  | nil => intro g; rfl
  | cons a t ih => intro g; rw [List.foldl_cons, ih, h]

theorem wireTo_kmerlen (g : DBGraph) (kid : Nat) (p : Seq) :
    (wireTo g kid p).kmerlen = g.kmerlen := by
  unfold wireTo
  cases dGet g.nodes p <;> rfl

theorem wireFrom_kmerlen (g : DBGraph) (kid : Nat) (p : Seq) :
    (wireFrom g kid p).kmerlen = g.kmerlen := by
  unfold wireFrom
  cases dGet g.nodes p <;> rfl

theorem wireTo_simplified (g : DBGraph) (kid : Nat) (p : Seq) :
    (wireTo g kid p).simplified = g.simplified := by
  unfold wireTo
  cases dGet g.nodes p <;> rfl

theorem wireFrom_simplified (g : DBGraph) (kid : Nat) (p : Seq) :
    (wireFrom g kid p).simplified = g.simplified := by
  unfold wireFrom
  cases dGet g.nodes p <;> rfl

theorem insertIfNew_kmerlen (g : DBGraph) (ks : Seq) :
    (insertIfNew g ks).kmerlen = g.kmerlen := by
  unfold insertIfNew
  split <;> rfl

theorem insertIfNew_simplified (g : DBGraph) (ks : Seq) :
    (insertIfNew g ks).simplified = g.simplified := by
  unfold insertIfNew
  split <;> rfl

theorem processKmer_kmerlen (g : DBGraph) (ks : Seq) :
    (processKmer g ks).kmerlen = g.kmerlen := by
  unfold processKmer
  simp only
  split
  · rw [foldl_pres _ _ (fun h p => wireFrom_kmerlen h _ p),
      foldl_pres _ _ (fun h p => wireTo_kmerlen h _ p),
      insertIfNew_kmerlen]
  · exact insertIfNew_kmerlen g ks

theorem processKmer_simplified (g : DBGraph) (ks : Seq) :
    (processKmer g ks).simplified = g.simplified := by
  unfold processKmer
  simp only
  split
  · rw [foldl_pres _ _ (fun h p => wireFrom_simplified h _ p),
      foldl_pres _ _ (fun h p => wireTo_simplified h _ p),
      insertIfNew_simplified]
  · exact insertIfNew_simplified g ks

theorem add_kmersGo_kmerlen (k : Nat) :
    ∀ (ks : List Seq) (g : DBGraph), (add_kmersGo k g ks).1.kmerlen = g.kmerlen := by
  intro ks
  induction ks with
  | nil => intro g; rfl
  | cons s t ih =>
    intro g
    unfold add_kmersGo
    split
    · rfl
    · rw [ih, processKmer_kmerlen]

/-- The per-key loop: an offending key aborts with the state reached so
far; the good prefix alone runs without error. -/
theorem add_kmersGo_abort (k : Nat) (bad : Seq) (rest : List Seq)
    (hbad : bad.length ≠ k) :
    ∀ (good : List Seq) (g : DBGraph), (∀ s ∈ good, s.length = k) →
      add_kmersGo k g (good ++ bad :: rest) =
        ((add_kmersGo k g good).1, some PyErr.attributeError) ∧
      (add_kmersGo k g good).2 = none := by
  intro good
  induction good with
  | nil =>
    intro g _
    constructor
    · show add_kmersGo k g (bad :: rest) = _
      unfold add_kmersGo
      rw [if_pos hbad]
    · rfl
  | cons s t ih =>
    intro g hgood
    have hs : s.length = k := hgood s (by simp)
    have ht : ∀ u ∈ t, u.length = k := fun u hu => hgood u (by simp [hu])
    have h1 := ih (processKmer g s) ht
    have hstep : ∀ (l : List Seq),
        add_kmersGo k g (s :: l) = add_kmersGo k (processKmer g s) l := by
      intro l
      show (if s.length ≠ k then (g, some PyErr.attributeError)
        else add_kmersGo k (processKmer g s) l) = _
      rw [if_neg (by simp [hs])]
    constructor
    · rw [List.cons_append, hstep, hstep]
      exact h1.1
    · rw [hstep]
      exact h1.2

end OpLemmas

theorem add_kmers_eq_go (g : DBGraph) (k : Nat) (l : List Seq)
    (h1 : g.simplified = false) (h2 : g.kmerlen = some k) (hl : l ≠ []) :
    add_kmers g l = add_kmersGo k g l := by
  unfold add_kmers
  rw [if_neg (by simp [h1])]
  cases l with
  | nil => exact absurd rfl hl
  | cons f t =>
    have hg1 : (if g.kmerlen.isNone then { g with kmerlen := some f.length } else g) = g := by
      rw [h2]
      rfl
    show add_kmersGo
        ((if g.kmerlen.isNone then { g with kmerlen := some f.length } else g).kmerlen.getD 0)
        (if g.kmerlen.isNone then { g with kmerlen := some f.length } else g) (f :: t) = _
    rw [hg1, h2]
    rfl

theorem add_kmers_nil (g : DBGraph) : add_kmers g [] = (g, none) := by
  unfold add_kmers
  split <;> rfl

section Termination

theorem length_dSet_le {κ α : Type} [DecidableEq κ] (l : List (κ × α)) (k : κ) (v : α) :
    (dSet l k v).length ≤ l.length + 1 := by
  induction l with
  | nil => simp [dSet]
  | cons p t ih =>
    obtain ⟨k0, v0⟩ := p
    by_cases h : k = k0 <;> simp [dSet, h]
    omega

theorem edgeTotL_dUpd (i : Nat) (n : DBGnode) (f : DBGnode → DBGnode) :
    ∀ (h : List (Nat × DBGnode)), dGet h i = some n →
      ((dUpd h i f).map fun p => p.2.edges_to.length).sum + n.edges_to.length =
        (h.map fun p => p.2.edges_to.length).sum + (f n).edges_to.length := by
  intro h
  induction h with
  | nil => intro hc; simp [dGet] at hc
  | cons p t ih =>
    obtain ⟨k0, v0⟩ := p
    intro hc
    by_cases h1 : i = k0
    · subst h1
      have hv : v0 = n := by simpa [dGet] using hc
      subst hv
      simp [dUpd]
      omega
    · rw [dGet, if_neg h1] at hc
      simp only [dUpd, if_neg h1, List.map_cons, List.sum_cons]
      have := ih hc
      omega

theorem edgeTot_updNode (g : DBGraph) (i : Nat) (n : DBGnode)
    (f : DBGnode → DBGnode) (h : dGet g.heap i = some n) :
    edgeTot (updNode g i f) + n.edges_to.length =
      edgeTot g + (f n).edges_to.length :=
  edgeTotL_dUpd i n f g.heap h

theorem edgeTot_updNode_keepETo (g : DBGraph) (i : Nat) (f : DBGnode → DBGnode)
    (h : ∀ n, (f n).edges_to = n.edges_to) :
    edgeTot (updNode g i f) = edgeTot g := by
  cases ho : dGet g.heap i with
  | none => rw [updNode_absent g i f ho]
  | some n =>
    have := edgeTot_updNode g i n f ho
    rw [h n] at this
    omega

theorem edgeTot_popNodes (g : DBGraph) (s : Seq) :
    edgeTot (popNodes g s) = edgeTot g := rfl

theorem getNode_updNode_eto (g : DBGraph) (i j : Nat) (f : DBGnode → DBGnode)
    (h : ∀ n, (f n).edges_to = n.edges_to) :
    (getNode (updNode g i f) j).edges_to = (getNode g j).edges_to := by
  by_cases hj : j = i
  · subst hj
    cases ho : dGet g.heap j with
    | none => rw [updNode_absent g j f ho]
    | some n => rw [getNode_updNode_self g j f n ho, getNode_eq_of_dGet g j n ho, h]
  · rw [getNode_updNode_ne g i j f hj]

theorem heapSome_updNode (g : DBGraph) (i j : Nat) (f : DBGnode → DBGnode) :
    (dGet (updNode g i f).heap j).isSome = (dGet g.heap j).isSome := by
  by_cases hj : j = i
  · subst hj
    show (dGet (dUpd g.heap j f) j).isSome = _
    rw [dGet_dUpd_self]
    cases dGet g.heap j <;> rfl
  · show (dGet (dUpd g.heap i f) j).isSome = _
    rw [dGet_dUpd_ne _ _ _ _ hj]

theorem dGet_heap_getNode (g : DBGraph) (i : Nat)
    (h : (dGet g.heap i).isSome) : dGet g.heap i = some (getNode g i) := by
  cases ho : dGet g.heap i with
  | none => rw [ho] at h; simp at h
  | some n => rw [getNode_eq_of_dGet g i n ho]

theorem heapSome_transferStep (x r : Nat) (g : DBGraph) (p : Nat × Nat) (j : Nat) :
    (dGet (transferStep x r g p).heap j).isSome = (dGet g.heap j).isSome := by
  unfold transferStep
  rw [heapSome_updNode, heapSome_updNode, heapSome_updNode]

theorem heapSome_fold_transfer (x r j : Nat) :
    ∀ (l : WMap) (g : DBGraph),
      (dGet ((l.foldl (transferStep x r) g)).heap j).isSome = (dGet g.heap j).isSome := by
  intro l
  induction l with
  | nil => intro g; rfl
  | cons p t ih =>
    intro g
    rw [List.foldl_cons, ih, heapSome_transferStep]

theorem getNode_updNode_efrom_eto (g : DBGraph) (i j : Nat) (f : DBGnode → WMap) :
    (getNode (updNode g i fun n => { n with edges_from := f n }) j).edges_to
      = (getNode g j).edges_to :=
  getNode_updNode_eto g i j _ (fun _ => rfl)

theorem getNode_updNode_seq_eto (g : DBGraph) (i j : Nat) (f : DBGnode → Seq) :
    (getNode (updNode g i fun n => { n with seq := f n }) j).edges_to
      = (getNode g j).edges_to :=
  getNode_updNode_eto g i j _ (fun _ => rfl)

theorem edgeTot_updNode_efrom (g : DBGraph) (i : Nat) (f : DBGnode → WMap) :
    edgeTot (updNode g i fun n => { n with edges_from := f n }) = edgeTot g :=
  edgeTot_updNode_keepETo g i _ (fun _ => rfl)

theorem edgeTot_updNode_seq (g : DBGraph) (i : Nat) (f : DBGnode → Seq) :
    edgeTot (updNode g i fun n => { n with seq := f n }) = edgeTot g :=
  edgeTot_updNode_keepETo g i _ (fun _ => rfl)

theorem transferStep_eto_other (x r j : Nat) (g : DBGraph) (p : Nat × Nat)
    (hj : j ≠ x) :
    (getNode (transferStep x r g p) j).edges_to = (getNode g j).edges_to := by
  unfold transferStep
  rw [getNode_updNode_efrom_eto, getNode_updNode_efrom_eto,
    getNode_updNode_ne _ _ _ _ hj]

theorem fold_transfer_eto_other (x r j : Nat) (hj : j ≠ x) :
    ∀ (l : WMap) (g : DBGraph),
      (getNode (l.foldl (transferStep x r) g) j).edges_to = (getNode g j).edges_to := by
  intro l
  induction l with
  | nil => intro g; rfl
  | cons p t ih =>
    intro g
    rw [List.foldl_cons, ih, transferStep_eto_other x r j g p hj]

theorem transferStep_edgeTot (x r : Nat) (g : DBGraph) (p : Nat × Nat) :
    edgeTot (transferStep x r g p) ≤ edgeTot g + 1 := by
  have h1 : edgeTot (transferStep x r g p) =
      edgeTot (updNode g x fun n =>
        { n with edges_to := dSet n.edges_to p.1 ((dGet n.edges_to p.1).getD 0 + p.2) }) := by
    unfold transferStep
    rw [edgeTot_updNode_efrom, edgeTot_updNode_efrom]
  rw [h1]
  cases ho : dGet g.heap x with
  | none => rw [updNode_absent g x _ ho]; omega
  | some n =>
    have h2 := edgeTot_updNode g x n
      (fun n => { n with edges_to := dSet n.edges_to p.1 ((dGet n.edges_to p.1).getD 0 + p.2) }) ho
    have hlen := length_dSet_le n.edges_to p.1 ((dGet n.edges_to p.1).getD 0 + p.2)
    simp only at h2
    omega

theorem fold_transfer_edgeTot (x r : Nat) :
    ∀ (l : WMap) (g : DBGraph),
      edgeTot (l.foldl (transferStep x r) g) ≤ edgeTot g + l.length := by
  intro l
  induction l with
  | nil => intro g; simp
  | cons p t ih =>
    intro g
    rw [List.foldl_cons]
    calc edgeTot (t.foldl (transferStep x r) (transferStep x r g p))
        ≤ edgeTot (transferStep x r g p) + t.length := ih _
      _ ≤ edgeTot g + 1 + t.length := by
          have := transferStep_edgeTot x r g p
          omega
      _ = edgeTot g + (p :: t).length := by simp; omega

theorem can_extend_next_iff (g : DBGraph) (x : Nat) :
    can_extend_next g x = true ↔
      ∃ b wb wx, (getNode g x).edges_to = [(b, wb)] ∧ b ≠ x ∧
        (getNode g b).edges_from = [(x, wx)] := by
  constructor
  · intro h
    unfold can_extend_next at h
    split at h
    next b wb he =>
      split at h
      · exact absurd h (by simp)
      next hne =>
        split at h
        next q wx hq =>
          refine ⟨b, wb, wx, he, hne, ?_⟩
          rw [hq]
          have : q = x := by simpa using h
          rw [this]
        next => exact absurd h (by simp)
    next => exact absurd h (by simp)
  · rintro ⟨b, wb, wx, h1, h2, h3⟩
    unfold can_extend_next
    rw [h1]
    show (if b = x then false
      else
        match (getNode g b).edges_from with
        | [(ef, _)] => decide (ef = x)
        | _ => false) = true
    rw [if_neg h2, h3]
    show decide (x = x) = true
    simp

theorem extend_next_of_false (g : DBGraph) (x : Nat)
    (h : can_extend_next g x = false) : extend_next g x = (g, none) := by
  unfold extend_next
  rw [if_neg (by simp [h])]

theorem extend_next_of_true (g : DBGraph) (x b : Nat) (wb : Nat)
    (hcan : can_extend_next g x = true)
    (he : (getNode g x).edges_to = [(b, wb)]) :
    extend_next g x = (doMerge g x b, some b) := by
  unfold extend_next
  rw [if_pos hcan, he]

theorem heapSome_mergeG2 (g : DBGraph) (x b j : Nat) :
    (dGet (mergeG2 g x b).heap j).isSome = (dGet g.heap j).isSome := by
  unfold mergeG2
  rw [heapSome_updNode, heapSome_updNode]

theorem mergeG2_eto_x (g : DBGraph) (x b : Nat)
    (hx : (dGet g.heap x).isSome) :
    (getNode (mergeG2 g x b) x).edges_to = dPop (getNode g x).edges_to b := by
  unfold mergeG2
  have hx1 : dGet (updNode g x fun n =>
      { n with seq := n.seq ++ (getNode g b).seq.drop (mergeOverlap g x b) }).heap x
      = some ((fun n => { n with seq := n.seq ++ (getNode g b).seq.drop (mergeOverlap g x b) })
          (getNode g x)) := by
    show dGet (dUpd g.heap x _) x = _
    rw [dGet_dUpd_self, dGet_heap_getNode g x hx]
    rfl
  rw [getNode_updNode_self _ _ _ _ hx1]

theorem mergeG2_eto_other (g : DBGraph) (x b j : Nat) (hj : j ≠ x) :
    (getNode (mergeG2 g x b) j).edges_to = (getNode g j).edges_to := by
  unfold mergeG2
  rw [getNode_updNode_ne _ _ _ _ hj, getNode_updNode_ne _ _ _ _ hj]

theorem mergeG2_edgeTot (g : DBGraph) (x b wb : Nat)
    (hx : (dGet g.heap x).isSome)
    (he : (getNode g x).edges_to = [(b, wb)]) :
    edgeTot (mergeG2 g x b) + 1 = edgeTot g := by
  unfold mergeG2
  set gA := updNode g x fun n =>
    { n with seq := n.seq ++ (getNode g b).seq.drop (mergeOverlap g x b) } with hgA
  have eA : edgeTot gA = edgeTot g := by rw [hgA, edgeTot_updNode_seq]
  have hxA : dGet gA.heap x = some ((fun n =>
      { n with seq := n.seq ++ (getNode g b).seq.drop (mergeOverlap g x b) })
        (getNode g x)) := by
    rw [hgA]
    show dGet (dUpd g.heap x _) x = _
    rw [dGet_dUpd_self, dGet_heap_getNode g x hx]
    rfl
  have := edgeTot_updNode gA x _ (fun n => { n with edges_to := dPop n.edges_to b }) hxA
  simp only at this
  rw [he] at this
  simp [dPop] at this
  omega

theorem doMerge_edgeTot (g : DBGraph) (x b wb : Nat)
    (hcan : can_extend_next g x = true)
    (he : (getNode g x).edges_to = [(b, wb)]) :
    edgeTot (doMerge g x b) + 1 ≤ edgeTot g := by
  obtain ⟨b1, wb1, wx, he1, hne, hf⟩ := (can_extend_next_iff g x).1 hcan
  rw [he] at he1
  injection he1 with hb1 _
  injection hb1 with hb1 hwb1
  subst hb1
  subst hwb1
  -- x and b are allocated: their dicts are not the dummy's empty dicts
  have hx : (dGet g.heap x).isSome := by
    cases ho : dGet g.heap x with
    | none =>
      rw [getNode_absent g x ho] at he
      exact absurd he (by simp [dummyNode])
    | some nx => rfl
  have hb : (dGet g.heap b).isSome := by
    cases ho : dGet g.heap b with
    | none =>
      rw [getNode_absent g b ho] at hf
      exact absurd hf (by simp [dummyNode])
    | some nb => rfl
  unfold doMerge
  set g2 := mergeG2 g x b with hg2
  have e2 : edgeTot g2 + 1 = edgeTot g := mergeG2_edgeTot g x b wb hx he
  set ETO := (getNode g2 b).edges_to with hETO
  set g3 := ETO.foldl (transferStep x b) g2 with hg3
  have e3 : edgeTot g3 ≤ edgeTot g2 + ETO.length := fold_transfer_edgeTot x b ETO g2
  have heb3 : (getNode g3 b).edges_to = ETO := by
    rw [hg3, fold_transfer_eto_other x b b hne ETO g2]
  have hb3 : dGet g3.heap b = some (getNode g3 b) := by
    apply dGet_heap_getNode
    rw [hg3, heapSome_fold_transfer, hg2, heapSome_mergeG2]
    exact hb
  have e4 : edgeTot (updNode g3 b fun n => { n with edges_to := [], edges_from := [] })
      + ETO.length = edgeTot g3 := by
    have := edgeTot_updNode g3 b _ (fun n => { n with edges_to := [], edges_from := [] }) hb3
    simp only at this
    rw [heb3] at this
    simp at this
    omega
  omega

theorem extendLoop_isSome :
    ∀ (fuel : Nat) (g : DBGraph) (x : Nat), edgeTot g < fuel →
      (extendLoop fuel g x).isSome := by
  intro fuel
  induction fuel with
  | zero => intro g x h; omega
  | succ n ih =>
    intro g x h
    unfold extendLoop
    cases hcan : can_extend_next g x with
    | false =>
      rw [extend_next_of_false g x hcan]
      simp
    | true =>
      obtain ⟨b, wb, wx, he, hne, hf⟩ := (can_extend_next_iff g x).1 hcan
      rw [extend_next_of_true g x b wb hcan he]
      simp only
      have hdec := doMerge_edgeTot g x b wb hcan he
      have : edgeTot (popNodes (doMerge g x b) (getNode (doMerge g x b) b).seq) < n := by
        rw [edgeTot_popNodes]
        omega
      have := ih _ x this
      cases hl : extendLoop n (popNodes (doMerge g x b) (getNode (doMerge g x b) b).seq) x with
      | none => rw [hl] at this; simp at this
      | some p => simp

theorem simplifyPass_isSome :
    ∀ (order : List Nat) (g : DBGraph), (simplifyPass g order).isSome := by
  intro order
  induction order with
  | nil => intro g; simp [simplifyPass]
  | cons x rest ih =>
    intro g
    unfold simplifyPass
    have h := extendLoop_isSome (edgeTot g + 1) g x (by omega)
    cases hl : extendLoop (edgeTot g + 1) g x with
    | none => rw [hl] at h; simp at h
    | some p =>
      simp only
      have := ih p.1
      cases hp : simplifyPass p.1 rest with
      | none => rw [hp] at this; simp at this
      | some q => simp

theorem simplify_isSome (g : DBGraph) : (simplify g).isSome := by
  unfold simplify simplifyWith
  have := simplifyPass_isSome (g.nodes.map Prod.snd) g
  cases hp : simplifyPass g (g.nodes.map Prod.snd) with
  | none => rw [hp] at this; simp at this
  | some p => simp

end Termination

section MergeLemmas

theorem getNode_updNode_seqPres (g : DBGraph) (i j : Nat) (f : DBGnode → DBGnode)
    (h : ∀ n, (f n).seq = n.seq) :
    (getNode (updNode g i f) j).seq = (getNode g j).seq := by
  by_cases hj : j = i
  · subst hj
    cases ho : dGet g.heap j with
    | none => rw [updNode_absent g j f ho]
    | some n => rw [getNode_updNode_self g j f n ho, getNode_eq_of_dGet g j n ho, h]
  · rw [getNode_updNode_ne g i j f hj]

theorem getNode_updNode_efromPres (g : DBGraph) (i j : Nat) (f : DBGnode → DBGnode)
    (h : ∀ n, (f n).edges_from = n.edges_from) :
    (getNode (updNode g i f) j).edges_from = (getNode g j).edges_from := by
  by_cases hj : j = i
  · subst hj
    cases ho : dGet g.heap j with
    | none => rw [updNode_absent g j f ho]
    | some n => rw [getNode_updNode_self g j f n ho, getNode_eq_of_dGet g j n ho, h]
  · rw [getNode_updNode_ne g i j f hj]

theorem getNode_updNode_eto_efrom (g : DBGraph) (i j : Nat) (f : DBGnode → WMap) :
    (getNode (updNode g i fun n => { n with edges_to := f n }) j).edges_from
      = (getNode g j).edges_from :=
  getNode_updNode_efromPres g i j _ (fun _ => rfl)

theorem getNode_updNode_seq_efrom (g : DBGraph) (i j : Nat) (f : DBGnode → Seq) :
    (getNode (updNode g i fun n => { n with seq := f n }) j).edges_from
      = (getNode g j).edges_from :=
  getNode_updNode_efromPres g i j _ (fun _ => rfl)

theorem getNode_updNode_eto_seq (g : DBGraph) (i j : Nat) (f : DBGnode → WMap) :
    (getNode (updNode g i fun n => { n with edges_to := f n }) j).seq
      = (getNode g j).seq :=
  getNode_updNode_seqPres g i j _ (fun _ => rfl)

theorem getNode_updNode_efrom_seq (g : DBGraph) (i j : Nat) (f : DBGnode → WMap) :
    (getNode (updNode g i fun n => { n with edges_from := f n }) j).seq
      = (getNode g j).seq :=
  getNode_updNode_seqPres g i j _ (fun _ => rfl)

theorem transferStep_seq (x r j : Nat) (g : DBGraph) (p : Nat × Nat) :
    (getNode (transferStep x r g p) j).seq = (getNode g j).seq := by
  unfold transferStep
  rw [getNode_updNode_efrom_seq, getNode_updNode_efrom_seq, getNode_updNode_eto_seq]

theorem transferStep_efrom_other (x r : Nat) (g : DBGraph) (p : Nat × Nat)
    (q : Nat) (hq : q ≠ p.1) :
    (getNode (transferStep x r g p) q).edges_from = (getNode g q).edges_from := by
  unfold transferStep
  rw [getNode_updNode_ne _ _ _ _ hq, getNode_updNode_ne _ _ _ _ hq,
    getNode_updNode_eto_efrom]

theorem transferStep_efrom_self (x r : Nat) (g : DBGraph) (p : Nat × Nat)
    (hp : (dGet g.heap p.1).isSome) :
    (getNode (transferStep x r g p) p.1).edges_from =
      dSet (dPop (getNode g p.1).edges_from r) x
        ((dGet (dPop (getNode g p.1).edges_from r) x).getD 0 + p.2) := by
  unfold transferStep
  set gA := updNode g x fun n =>
    { n with edges_to := dSet n.edges_to p.1 ((dGet n.edges_to p.1).getD 0 + p.2) } with hgA
  have hpA : (dGet gA.heap p.1).isSome := by rw [hgA, heapSome_updNode]; exact hp
  have hApres : (getNode gA p.1).edges_from = (getNode g p.1).edges_from := by
    rw [hgA, getNode_updNode_eto_efrom]
  set gB := updNode gA p.1 fun n => { n with edges_from := dPop n.edges_from r } with hgB
  have hpB : (dGet gB.heap p.1).isSome := by rw [hgB, heapSome_updNode]; exact hpA
  have hB : (getNode gB p.1).edges_from = dPop (getNode g p.1).edges_from r := by
    rw [hgB, getNode_updNode_self gA p.1 _ _ (dGet_heap_getNode gA p.1 hpA)]
    show dPop (getNode gA p.1).edges_from r = _
    rw [hApres]
  rw [getNode_updNode_self gB p.1 _ _ (dGet_heap_getNode gB p.1 hpB)]
  show dSet (getNode gB p.1).edges_from x
    ((dGet (getNode gB p.1).edges_from x).getD 0 + p.2) = _
  rw [hB]

theorem transferStep_eto_x (x r : Nat) (g : DBGraph) (p : Nat × Nat)
    (hx : (dGet g.heap x).isSome) :
    (getNode (transferStep x r g p) x).edges_to =
      dSet (getNode g x).edges_to p.1
        ((dGet (getNode g x).edges_to p.1).getD 0 + p.2) := by
  unfold transferStep
  rw [getNode_updNode_efrom_eto, getNode_updNode_efrom_eto,
    getNode_updNode_self g x _ _ (dGet_heap_getNode g x hx)]

theorem fold_transfer_seq (x r j : Nat) :
    ∀ (l : WMap) (g : DBGraph),
      (getNode (l.foldl (transferStep x r) g) j).seq = (getNode g j).seq := by
  intro l
  induction l with
  | nil => intro g; rfl
  | cons p t ih => intro g; rw [List.foldl_cons, ih, transferStep_seq]

theorem fold_transfer_efrom_other (x r c : Nat) :
    ∀ (l : WMap) (g : DBGraph), c ∉ dKeys l →
      (getNode (l.foldl (transferStep x r) g) c).edges_from =
        (getNode g c).edges_from := by
  intro l
  induction l with
  | nil => intro g _; rfl
  | cons p t ih =>
    intro g hc
    rw [dKeys_cons] at hc
    rw [List.foldl_cons, ih _ (fun hm => hc (List.mem_cons_of_mem _ hm)),
      transferStep_efrom_other x r g p c (fun he => hc (by rw [he]; exact List.mem_cons_self _ _))]

theorem fold_transfer_efrom_mem (x r c : Nat) :
    ∀ (l : WMap) (g : DBGraph) (wc : Nat), (dKeys l).Nodup →
      dGet l c = some wc → (dGet g.heap c).isSome →
      (getNode (l.foldl (transferStep x r) g) c).edges_from =
        dSet (dPop (getNode g c).edges_from r) x
          ((dGet (dPop (getNode g c).edges_from r) x).getD 0 + wc) := by
  intro l
  induction l with
  | nil => intro g wc _ hget; simp [dGet] at hget
  | cons p t ih =>
    intro g wc hnd hget hc
    obtain ⟨k0, w0⟩ := p
    rw [dKeys_cons, List.nodup_cons] at hnd
    by_cases hck : c = k0
    · subst hck
      have hw : w0 = wc := by simpa [dGet] using hget
      subst hw
      rw [List.foldl_cons,
        fold_transfer_efrom_other x r c t _ hnd.1,
        transferStep_efrom_self x r g (c, w0) hc]
    · rw [dGet, if_neg hck] at hget
      rw [List.foldl_cons]
      have hc1 : (dGet (transferStep x r g (k0, w0)).heap c).isSome := by
        rw [heapSome_transferStep]; exact hc
      rw [ih _ wc hnd.2 hget hc1,
        transferStep_efrom_other x r g (k0, w0) c hck]

theorem fold_transfer_eto_x (x r : Nat) :
    ∀ (l : WMap) (g : DBGraph),
      (dKeys ((getNode g x).edges_to) ++ dKeys l).Nodup →
      (dGet g.heap x).isSome →
      (getNode (l.foldl (transferStep x r) g) x).edges_to =
        (getNode g x).edges_to ++ l := by
  intro l
  induction l with
  | nil => intro g _ _; simp
  | cons p t ih =>
    intro g hnd hx
    obtain ⟨k0, w0⟩ := p
    rw [List.foldl_cons]
    have hk0 : k0 ∉ dKeys (getNode g x).edges_to := by
      intro hm
      rw [List.nodup_append] at hnd
      exact hnd.2.2 hm (by rw [dKeys_cons]; exact List.mem_cons_self _ _)
    have hget : dGet (getNode g x).edges_to k0 = none :=
      dGet_none_of_not_mem_keys _ _ hk0
    have hstep : (getNode (transferStep x r g (k0, w0)) x).edges_to =
        (getNode g x).edges_to ++ [(k0, w0)] := by
      rw [transferStep_eto_x x r g (k0, w0) hx]
      show dSet (getNode g x).edges_to k0 ((dGet (getNode g x).edges_to k0).getD 0 + w0) = _
      rw [hget, dKeys_dSet_absent _ _ _ hget]
      simp
    have hx1 : (dGet (transferStep x r g (k0, w0)).heap x).isSome := by
      rw [heapSome_transferStep]; exact hx
    have hnd1 : (dKeys ((getNode (transferStep x r g (k0, w0)) x).edges_to)
        ++ dKeys t).Nodup := by
      rw [hstep]
      have : dKeys ((getNode g x).edges_to ++ [(k0, w0)]) =
          dKeys (getNode g x).edges_to ++ [k0] := by simp [dKeys]
      rw [this, List.append_assoc]
      rw [dKeys_cons] at hnd
      have hperm : (dKeys (getNode g x).edges_to ++ ([k0] ++ dKeys t)).Perm
          (dKeys (getNode g x).edges_to ++ (k0 :: dKeys t)) := by simp
      exact hperm.nodup_iff.mpr hnd
    rw [ih _ hnd1 hx1, hstep, List.append_assoc]
    rfl

theorem fold_transfer_efrom_hasx (x r c : Nat) (hrx : r ≠ x) :
    ∀ (l : WMap) (g : DBGraph), c ∈ dKeys l → (dGet g.heap c).isSome →
      x ∈ dKeys (getNode (l.foldl (transferStep x r) g) c).edges_from := by
  have hpres : ∀ (g : DBGraph) (p : Nat × Nat),
      x ∈ dKeys (getNode g c).edges_from → (dGet g.heap c).isSome →
      x ∈ dKeys (getNode (transferStep x r g p) c).edges_from := by
    intro g p hin hc
    by_cases hcp : c = p.1
    · subst hcp
      rw [transferStep_efrom_self x r g p hc]
      exact mem_keys_of_dGet_isSome _ _ (by rw [dGet_dSet_self]; rfl)
    · rw [transferStep_efrom_other x r g p c hcp]
      exact hin
  have hkeep : ∀ (l : WMap) (g : DBGraph),
      x ∈ dKeys (getNode g c).edges_from → (dGet g.heap c).isSome →
      x ∈ dKeys (getNode (l.foldl (transferStep x r) g) c).edges_from := by
    intro l
    induction l with
    | nil => intro g h _; exact h
    | cons p t ih =>
      intro g h hc
      rw [List.foldl_cons]
      exact ih _ (hpres g p h hc) (by rw [heapSome_transferStep]; exact hc)
  intro l
  induction l with
  | nil => intro g h; simp at h
  | cons p t ih =>
    intro g hc hsome
    rw [dKeys_cons, List.mem_cons] at hc
    rw [List.foldl_cons]
    rcases hc with hc | hc
    · subst hc
      apply hkeep
      · rw [transferStep_efrom_self x r g p hsome]
        exact mem_keys_of_dGet_isSome _ _ (by rw [dGet_dSet_self]; rfl)
      · rw [heapSome_transferStep]; exact hsome
    · exact ih _ hc (by rw [heapSome_transferStep]; exact hsome)

theorem mergeG2_efrom (g : DBGraph) (x b j : Nat) :
    (getNode (mergeG2 g x b) j).edges_from = (getNode g j).edges_from := by
  unfold mergeG2
  rw [getNode_updNode_eto_efrom, getNode_updNode_seq_efrom]

theorem mergeG2_seq_x (g : DBGraph) (x b : Nat) (hx : (dGet g.heap x).isSome) :
    (getNode (mergeG2 g x b) x).seq =
      (getNode g x).seq ++ (getNode g b).seq.drop (mergeOverlap g x b) := by
  unfold mergeG2
  rw [getNode_updNode_eto_seq,
    getNode_updNode_self g x _ _ (dGet_heap_getNode g x hx)]

theorem mergeG2_seq_other (g : DBGraph) (x b j : Nat) (hj : j ≠ x) :
    (getNode (mergeG2 g x b) j).seq = (getNode g j).seq := by
  unfold mergeG2
  rw [getNode_updNode_ne _ _ _ _ hj, getNode_updNode_ne _ _ _ _ hj]

theorem heapSome_doMerge (g : DBGraph) (x b j : Nat) :
    (dGet (doMerge g x b).heap j).isSome = (dGet g.heap j).isSome := by
  unfold doMerge
  rw [heapSome_updNode, heapSome_fold_transfer, heapSome_mergeG2]

theorem getNode_updNode_clear_seq (g : DBGraph) (i j : Nat) :
    (getNode (updNode g i fun n => { n with edges_to := [], edges_from := [] }) j).seq
      = (getNode g j).seq :=
  getNode_updNode_seqPres g i j _ (fun _ => rfl)

theorem doMerge_seq_x (g : DBGraph) (x b : Nat) (hx : (dGet g.heap x).isSome) :
    (getNode (doMerge g x b) x).seq =
      (getNode g x).seq ++ (getNode g b).seq.drop (mergeOverlap g x b) := by
  unfold doMerge
  rw [getNode_updNode_clear_seq, fold_transfer_seq, mergeG2_seq_x g x b hx]

theorem doMerge_seq_other (g : DBGraph) (x b j : Nat) (hjx : j ≠ x) :
    (getNode (doMerge g x b) j).seq = (getNode g j).seq := by
  unfold doMerge
  rw [getNode_updNode_clear_seq, fold_transfer_seq, mergeG2_seq_other g x b j hjx]

theorem doMerge_eto_x (g : DBGraph) (x b wb : Nat)
    (hx : (dGet g.heap x).isSome) (hbx : b ≠ x)
    (hsucc : (getNode g x).edges_to = [(b, wb)])
    (hnodup : (dKeys (getNode g b).edges_to).Nodup) :
    (getNode (doMerge g x b) x).edges_to = (getNode g b).edges_to := by
  unfold doMerge
  rw [getNode_updNode_ne _ _ _ _ (Ne.symm hbx)]
  have hx2 : (dGet (mergeG2 g x b).heap x).isSome := by
    rw [heapSome_mergeG2]; exact hx
  have h2 : (getNode (mergeG2 g x b) x).edges_to = [] := by
    rw [mergeG2_eto_x g x b hx, hsucc]
    simp [dPop]
  have hETO : (getNode (mergeG2 g x b) b).edges_to = (getNode g b).edges_to :=
    mergeG2_eto_other g x b b hbx
  have hnd : (dKeys ((getNode (mergeG2 g x b) x).edges_to)
      ++ dKeys ((getNode (mergeG2 g x b) b).edges_to)).Nodup := by
    rw [h2, hETO]
    simpa using hnodup
  rw [fold_transfer_eto_x x b _ _ hnd hx2, h2, hETO, List.nil_append]

theorem doMerge_cleared (g : DBGraph) (x b : Nat) (hb : (dGet g.heap b).isSome) :
    (getNode (doMerge g x b) b).edges_to = [] ∧
    (getNode (doMerge g x b) b).edges_from = [] := by
  unfold doMerge
  have hb3 : (dGet (((getNode (mergeG2 g x b) b).edges_to).foldl
      (transferStep x b) (mergeG2 g x b)).heap b).isSome := by
    rw [heapSome_fold_transfer, heapSome_mergeG2]; exact hb
  rw [getNode_updNode_self _ b _ _ (dGet_heap_getNode _ b hb3)]
  exact ⟨rfl, rfl⟩

theorem doMerge_efrom_mem (g : DBGraph) (x b c wc : Nat)
    (hcb : c ≠ b) (hbx : b ≠ x)
    (hget : dGet (getNode g b).edges_to c = some wc)
    (hnodup : (dKeys (getNode g b).edges_to).Nodup)
    (hc : (dGet g.heap c).isSome) :
    (getNode (doMerge g x b) c).edges_from =
      dSet (dPop (getNode g c).edges_from b) x
        ((dGet (getNode g c).edges_from x).getD 0 + wc) := by
  unfold doMerge
  rw [getNode_updNode_ne _ _ _ _ hcb]
  have hETO : (getNode (mergeG2 g x b) b).edges_to = (getNode g b).edges_to :=
    mergeG2_eto_other g x b b hbx
  have hc2 : (dGet (mergeG2 g x b).heap c).isSome := by
    rw [heapSome_mergeG2]; exact hc
  rw [fold_transfer_efrom_mem x b c _ _ wc (by rw [hETO]; exact hnodup)
    (by rw [hETO]; exact hget) hc2, mergeG2_efrom,
    dGet_dPop_ne _ _ _ (Ne.symm hbx)]

theorem doMerge_eto_other (g : DBGraph) (x b j : Nat) (hjx : j ≠ x) (hjb : j ≠ b) :
    (getNode (doMerge g x b) j).edges_to = (getNode g j).edges_to := by
  unfold doMerge
  rw [getNode_updNode_ne _ _ _ _ hjb, fold_transfer_eto_other x b j hjx,
    mergeG2_eto_other g x b j hjx]

theorem doMerge_efrom_other (g : DBGraph) (x b j : Nat) (hjb : j ≠ b)
    (hbx : b ≠ x) (hj : j ∉ dKeys (getNode g b).edges_to) :
    (getNode (doMerge g x b) j).edges_from = (getNode g j).edges_from := by
  unfold doMerge
  rw [getNode_updNode_ne _ _ _ _ hjb,
    fold_transfer_efrom_other x b j _ _
      (by rw [mergeG2_eto_other g x b b hbx]; exact hj),
    mergeG2_efrom]

theorem doMerge_efrom_hasx (g : DBGraph) (x b j : Nat) (hjb : j ≠ b)
    (hbx : b ≠ x) (hj : j ∈ dKeys (getNode g b).edges_to)
    (hjsome : (dGet g.heap j).isSome) :
    x ∈ dKeys (getNode (doMerge g x b) j).edges_from := by
  unfold doMerge
  rw [getNode_updNode_ne _ _ _ _ hjb]
  exact fold_transfer_efrom_hasx x b j hbx _ _
    (by rw [mergeG2_eto_other g x b b hbx]; exact hj)
    (by rw [heapSome_mergeG2]; exact hjsome)

theorem endsW_nil (a : Seq) : endsW a [] = true := by simp [endsW]

theorem overlapLoop_spec (a b : Seq) :
    ∀ j, overlapLoop a b j ≤ j ∧
      endsW a (b.take (overlapLoop a b j)) = true ∧
      ∀ i, overlapLoop a b j < i → i ≤ j → endsW a (b.take i) = false := by
  intro j
  induction j with
  | zero =>
    refine ⟨le_refl 0, ?_, fun i h1 h2 => absurd (lt_of_lt_of_le h1 h2) (lt_irrefl 0)⟩
    show endsW a (b.take 0) = true
    rw [List.take_zero]
    exact endsW_nil a
  | succ n ih =>
    have hdef : overlapLoop a b (n + 1) =
        if endsW a (b.take (n + 1)) then n + 1 else overlapLoop a b n := rfl
    cases hc : endsW a (b.take (n + 1)) with
    | true =>
      rw [hdef, if_pos hc]
      exact ⟨le_refl _, hc, fun i h1 h2 => absurd (lt_of_lt_of_le h1 h2) (lt_irrefl _)⟩
    | false =>
      rw [hdef, if_neg (by simp [hc])]
      refine ⟨ih.1.trans (by omega), ih.2.1, fun i h1 h2 => ?_⟩
      rcases Nat.lt_or_ge i (n + 1) with h3 | h3
      · exact ih.2.2 i h1 (by omega)
      · have : i = n + 1 := by omega
        rw [this]
        exact hc

theorem mergeOverlap_isMax (g : DBGraph) (x b : Nat) :
    IsMaxOverlap (getNode g x).seq (getNode g b).seq (mergeOverlap g x b) := by
  unfold IsMaxOverlap mergeOverlap
  exact overlapLoop_spec (getNode g x).seq (getNode g b).seq
    (min (getNode g x).seq.length (getNode g b).seq.length)

end MergeLemmas

section SymWfLemmas

theorem dGet_mem {κ α : Type} [DecidableEq κ] (l : List (κ × α)) (k : κ) (v : α)
    (h : dGet l k = some v) : (k, v) ∈ l := by
  induction l with
  | nil => simp [dGet] at h
  | cons p t ih =>
    obtain ⟨k0, v0⟩ := p
    by_cases h1 : k = k0
    · subst h1
      have : v0 = v := by simpa [dGet] using h
      subst this
      exact List.mem_cons_self _ _
    · rw [dGet, if_neg h1] at h
      exact List.mem_cons_of_mem _ (ih h)

theorem dGet_append_single {κ α : Type} [DecidableEq κ]
    (h : List (κ × α)) (i0 : κ) (n0 : α) (j : κ) (hfresh : i0 ∉ dKeys h) :
    dGet (h ++ [(i0, n0)]) j = if j = i0 then some n0 else dGet h j := by
  induction h with
  | nil => simp [dGet]
  | cons p t ih =>
    obtain ⟨k0, v0⟩ := p
    rw [dKeys_cons, List.mem_cons] at hfresh
    push_neg at hfresh
    by_cases h1 : j = k0
    · subst h1
      rw [List.cons_append, dGet, if_pos rfl, dGet, if_pos rfl, if_neg (Ne.symm hfresh.1)]
    · rw [List.cons_append, dGet, if_neg h1, dGet, if_neg h1, ih hfresh.2]

theorem symChk_correct (g : DBGraph) (h : symChk g = true) : Sym g := by
  unfold symChk at h
  rw [Bool.and_eq_true] at h
  obtain ⟨hcl, hpair⟩ := h
  unfold keysClosed at hcl
  rw [List.all_eq_true] at hcl hpair
  intro a c
  cases hoa : dGet g.heap a with
  | none =>
    rw [getNode_absent g a hoa]
    cases hoc : dGet g.heap c with
    | none => rw [getNode_absent g c hoc]; rfl
    | some nc =>
      rw [getNode_eq_of_dGet g c nc hoc]
      cases hg : dGet nc.edges_from a with
      | none => rfl
      | some w =>
        have hentry := hcl (c, nc) (dGet_mem _ _ _ hoc)
        rw [Bool.and_eq_true, List.all_eq_true, List.all_eq_true] at hentry
        have := hentry.2 (a, w) (dGet_mem _ _ _ hg)
        rw [hoa] at this
        simp at this
  | some na =>
    rw [getNode_eq_of_dGet g a na hoa]
    cases hoc : dGet g.heap c with
    | none =>
      rw [getNode_absent g c hoc]
      cases hg : dGet na.edges_to c with
      | none => rfl
      | some w =>
        have hentry := hcl (a, na) (dGet_mem _ _ _ hoa)
        rw [Bool.and_eq_true, List.all_eq_true, List.all_eq_true] at hentry
        have := hentry.1 (c, w) (dGet_mem _ _ _ hg)
        rw [hoc] at this
        simp at this
    | some nc =>
      rw [getNode_eq_of_dGet g c nc hoc]
      have hp := hpair (a, na) (dGet_mem _ _ _ hoa)
      rw [List.all_eq_true] at hp
      have := hp (c, nc) (dGet_mem _ _ _ hoc)
      rw [beq_iff_eq, getNode_eq_of_dGet g a na hoa, getNode_eq_of_dGet g c nc hoc] at this
      exact this

theorem wfChk_correct (g : DBGraph) (h : wfChk g = true) : Wf g := by
  unfold wfChk at h
  rw [Bool.and_eq_true, Bool.and_eq_true, Bool.and_eq_true] at h
  obtain ⟨⟨⟨h1, h2⟩, h3⟩, h4⟩ := h
  rw [List.all_eq_true] at h2 h3 h4
  refine ⟨by simpa using h1, ?_, ?_, ?_⟩
  · intro i hi
    obtain ⟨⟨i', n⟩, hmem, heq⟩ := List.mem_map.1 hi
    subst heq
    simpa using h2 (i', n) hmem
  · intro s i hsi
    exact h3 (s, i) (dGet_mem _ _ _ hsi)
  · intro i n hin
    have := h4 (i, n) (dGet_mem _ _ _ hin)
    rw [Bool.and_eq_true] at this
    exact ⟨by simpa using this.1, by simpa using this.2⟩

theorem Wf_updNode (g : DBGraph) (i : Nat) (f : DBGnode → DBGnode) (hW : Wf g)
    (hf : ∀ n, (dKeys n.edges_to).Nodup → (dKeys n.edges_from).Nodup →
      (dKeys (f n).edges_to).Nodup ∧ (dKeys (f n).edges_from).Nodup) :
    Wf (updNode g i f) := by
  obtain ⟨w1, w2, w3, w4⟩ := hW
  refine ⟨?_, ?_, ?_, ?_⟩
  · rw [updNode_heap_keys]; exact w1
  · intro j hj
    rw [updNode_heap_keys] at hj
    exact w2 j hj
  · intro s j hsj
    rw [updNode_nodes] at hsj
    rw [heapSome_updNode]
    exact w3 s j hsj
  · intro j n hjn
    have hjn' : dGet (dUpd g.heap i f) j = some n := hjn
    by_cases hji : j = i
    · subst hji
      rw [dGet_dUpd_self] at hjn'
      cases ho : dGet g.heap j with
      | none => rw [ho] at hjn'; simp at hjn'
      | some m =>
        rw [ho] at hjn'
        have hmap : some (f m) = some n := hjn'
        injection hmap with hmap
        subst hmap
        exact hf m (w4 j m ho).1 (w4 j m ho).2
    · rw [dGet_dUpd_ne _ _ _ _ hji] at hjn'
      exact w4 j n hjn'

theorem Wf_add_edge_to (g : DBGraph) (si eto : Nat) (hW : Wf g) :
    Wf (add_edge_to g si eto) :=
  Wf_updNode g si _ hW (fun n h1 h2 => ⟨dKeys_dSet_nodup _ _ _ h1, h2⟩)

theorem Wf_add_edge_from (g : DBGraph) (si efr : Nat) (hW : Wf g) :
    Wf (add_edge_from g si efr) :=
  Wf_updNode g si _ hW (fun n h1 h2 => ⟨h1, dKeys_dSet_nodup _ _ _ h2⟩)

theorem Wf_wireTo (g : DBGraph) (kid : Nat) (p : Seq) (hW : Wf g) :
    Wf (wireTo g kid p) := by
  unfold wireTo
  cases dGet g.nodes p with
  | none => exact hW
  | some pid => exact Wf_add_edge_to _ _ _ (Wf_add_edge_from _ _ _ hW)

theorem Wf_wireFrom (g : DBGraph) (kid : Nat) (p : Seq) (hW : Wf g) :
    Wf (wireFrom g kid p) := by
  unfold wireFrom
  cases dGet g.nodes p with
  | none => exact hW
  | some pid => exact Wf_add_edge_from _ _ _ (Wf_add_edge_to _ _ _ hW)

theorem heapSome_add_edge_to (g : DBGraph) (si eto j : Nat) :
    (dGet (add_edge_to g si eto).heap j).isSome = (dGet g.heap j).isSome := by
  unfold add_edge_to
  rw [heapSome_updNode]

theorem heapSome_add_edge_from (g : DBGraph) (si efr j : Nat) :
    (dGet (add_edge_from g si efr).heap j).isSome = (dGet g.heap j).isSome := by
  unfold add_edge_from
  rw [heapSome_updNode]

theorem heapSome_wireTo (g : DBGraph) (kid : Nat) (p : Seq) (j : Nat) :
    (dGet (wireTo g kid p).heap j).isSome = (dGet g.heap j).isSome := by
  unfold wireTo
  cases dGet g.nodes p with
  | none => rfl
  | some pid => rw [heapSome_add_edge_to, heapSome_add_edge_from]

theorem heapSome_wireFrom (g : DBGraph) (kid : Nat) (p : Seq) (j : Nat) :
    (dGet (wireFrom g kid p).heap j).isSome = (dGet g.heap j).isSome := by
  unfold wireFrom
  cases dGet g.nodes p with
  | none => rfl
  | some pid => rw [heapSome_add_edge_from, heapSome_add_edge_to]

/-- Symmetry is preserved by any operation whose net effect is to add
weight 1 to the `u → v` edge on both endpoints. -/
theorem Sym_after_record (g g' : DBGraph) (u v : Nat) (hS : Sym g)
    (hto : ∀ j, (getNode g' j).edges_to =
      if j = u then dSet (getNode g u).edges_to v
        ((dGet (getNode g u).edges_to v).getD 0 + 1)
      else (getNode g j).edges_to)
    (hfrom : ∀ j, (getNode g' j).edges_from =
      if j = v then dSet (getNode g v).edges_from u
        ((dGet (getNode g v).edges_from u).getD 0 + 1)
      else (getNode g j).edges_from) : Sym g' := by
  intro a c
  rw [hto a, hfrom c]
  by_cases hau : a = u <;> by_cases hcv : c = v
  · subst hau; subst hcv
    rw [if_pos rfl, if_pos rfl, dGet_dSet_self, dGet_dSet_self, hS a c]
  · subst hau
    rw [if_pos rfl, if_neg hcv, dGet_dSet_ne _ _ _ _ hcv, hS a c]
  · subst hcv
    rw [if_neg hau, if_pos rfl, dGet_dSet_ne _ _ _ _ hau, hS a c]
  · rw [if_neg hau, if_neg hcv, hS a c]

theorem wireTo_hit_to (g : DBGraph) (kid : Nat) (pto : Seq) (pid : Nat)
    (hd : dGet g.nodes pto = some pid) (hk : (dGet g.heap kid).isSome) (j : Nat) :
    (getNode (wireTo g kid pto) j).edges_to =
      if j = kid then dSet (getNode g kid).edges_to pid
        ((dGet (getNode g kid).edges_to pid).getD 0 + 1)
      else (getNode g j).edges_to := by
  unfold wireTo
  rw [hd]
  show (getNode (add_edge_to (add_edge_from g pid kid) kid pid) j).edges_to = _
  unfold add_edge_to
  by_cases hj : j = kid
  · subst hj
    have hk1 : (dGet (add_edge_from g pid j).heap j).isSome := by
      rw [heapSome_add_edge_from]; exact hk
    rw [getNode_updNode_self _ j _ _ (dGet_heap_getNode _ j hk1), if_pos rfl]
    show dSet (getNode (add_edge_from g pid j) j).edges_to pid
      ((dGet (getNode (add_edge_from g pid j) j).edges_to pid).getD 0 + 1) = _
    unfold add_edge_from
    rw [getNode_updNode_efrom_eto]
  · rw [getNode_updNode_ne _ _ _ _ hj, if_neg hj]
    unfold add_edge_from
    rw [getNode_updNode_efrom_eto]

theorem wireTo_hit_from (g : DBGraph) (kid : Nat) (pto : Seq) (pid : Nat)
    (hd : dGet g.nodes pto = some pid) (hp : (dGet g.heap pid).isSome) (j : Nat) :
    (getNode (wireTo g kid pto) j).edges_from =
      if j = pid then dSet (getNode g pid).edges_from kid
        ((dGet (getNode g pid).edges_from kid).getD 0 + 1)
      else (getNode g j).edges_from := by
  unfold wireTo
  rw [hd]
  show (getNode (add_edge_to (add_edge_from g pid kid) kid pid) j).edges_from = _
  unfold add_edge_to
  rw [getNode_updNode_eto_efrom]
  unfold add_edge_from
  by_cases hj : j = pid
  · subst hj
    rw [getNode_updNode_self _ j _ _ (dGet_heap_getNode _ j hp), if_pos rfl]
  · rw [getNode_updNode_ne _ _ _ _ hj, if_neg hj]

theorem wireFrom_hit_to (g : DBGraph) (kid : Nat) (pfrom : Seq) (pid : Nat)
    (hd : dGet g.nodes pfrom = some pid) (hp : (dGet g.heap pid).isSome) (j : Nat) :
    (getNode (wireFrom g kid pfrom) j).edges_to =
      if j = pid then dSet (getNode g pid).edges_to kid
        ((dGet (getNode g pid).edges_to kid).getD 0 + 1)
      else (getNode g j).edges_to := by
  unfold wireFrom
  rw [hd]
  show (getNode (add_edge_from (add_edge_to g pid kid) kid pid) j).edges_to = _
  unfold add_edge_from
  rw [getNode_updNode_efrom_eto]
  unfold add_edge_to
  by_cases hj : j = pid
  · subst hj
    rw [getNode_updNode_self _ j _ _ (dGet_heap_getNode _ j hp), if_pos rfl]
  · rw [getNode_updNode_ne _ _ _ _ hj, if_neg hj]

theorem wireFrom_hit_from (g : DBGraph) (kid : Nat) (pfrom : Seq) (pid : Nat)
    (hd : dGet g.nodes pfrom = some pid) (hk : (dGet g.heap kid).isSome) (j : Nat) :
    (getNode (wireFrom g kid pfrom) j).edges_from =
      if j = kid then dSet (getNode g kid).edges_from pid
        ((dGet (getNode g kid).edges_from pid).getD 0 + 1)
      else (getNode g j).edges_from := by
  unfold wireFrom
  rw [hd]
  show (getNode (add_edge_from (add_edge_to g pid kid) kid pid) j).edges_from = _
  unfold add_edge_from
  by_cases hj : j = kid
  · subst hj
    have hk1 : (dGet (add_edge_to g pid j).heap j).isSome := by
      rw [heapSome_add_edge_to]; exact hk
    rw [getNode_updNode_self _ j _ _ (dGet_heap_getNode _ j hk1), if_pos rfl]
    show dSet (getNode (add_edge_to g pid j) j).edges_from pid
      ((dGet (getNode (add_edge_to g pid j) j).edges_from pid).getD 0 + 1) = _
    unfold add_edge_to
    rw [getNode_updNode_eto_efrom]
  · rw [getNode_updNode_ne _ _ _ _ hj, if_neg hj]
    unfold add_edge_to
    rw [getNode_updNode_eto_efrom]

theorem Sym_wireTo (g : DBGraph) (kid : Nat) (p : Seq)
    (hS : Sym g) (hW : Wf g) (hk : (dGet g.heap kid).isSome) :
    Sym (wireTo g kid p) := by
  cases hd : dGet g.nodes p with
  | none =>
    have : wireTo g kid p = g := by unfold wireTo; rw [hd]
    rw [this]
    exact hS
  | some pid =>
    exact Sym_after_record g _ kid pid hS
      (wireTo_hit_to g kid p pid hd hk)
      (wireTo_hit_from g kid p pid hd (hW.2.2.1 p pid hd))

theorem Sym_wireFrom (g : DBGraph) (kid : Nat) (p : Seq)
    (hS : Sym g) (hW : Wf g) (hk : (dGet g.heap kid).isSome) :
    Sym (wireFrom g kid p) := by
  cases hd : dGet g.nodes p with
  | none =>
    have : wireFrom g kid p = g := by unfold wireFrom; rw [hd]
    rw [this]
    exact hS
  | some pid =>
    exact Sym_after_record g _ pid kid hS
      (wireFrom_hit_to g kid p pid hd (hW.2.2.1 p pid hd))
      (wireFrom_hit_from g kid p pid hd hk)

theorem Sym_insertIfNew (g : DBGraph) (ks : Seq) (hS : Sym g) (hW : Wf g) :
    Sym (insertIfNew g ks) := by
  unfold insertIfNew
  split
  · exact hS
  · have hfresh : g.nextId ∉ dKeys g.heap := fun hm =>
      absurd (hW.2.1 g.nextId hm) (lt_irrefl _)
    have hnone : dGet g.heap g.nextId = none := dGet_none_of_not_mem_keys _ _ hfresh
    intro a c
    show dGet ((dGet (g.heap ++ [(g.nextId, ⟨ks, [], []⟩)]) a).getD dummyNode).edges_to c
      = dGet ((dGet (g.heap ++ [(g.nextId, ⟨ks, [], []⟩)]) c).getD dummyNode).edges_from a
    rw [dGet_append_single _ _ _ a hfresh, dGet_append_single _ _ _ c hfresh]
    by_cases ha : a = g.nextId <;> by_cases hc : c = g.nextId
    · rw [if_pos ha, if_pos hc]
      rfl
    · rw [if_pos ha, if_neg hc]
      show dGet (⟨ks, [], []⟩ : DBGnode).edges_to c = dGet (getNode g c).edges_from a
      rw [ha, ← hS g.nextId c, getNode_absent g g.nextId hnone]
      rfl
    · rw [if_neg ha, if_pos hc]
      show dGet (getNode g a).edges_to c = dGet (⟨ks, [], []⟩ : DBGnode).edges_from a
      rw [hc, hS a g.nextId, getNode_absent g g.nextId hnone]
      rfl
    · rw [if_neg ha, if_neg hc]
      exact hS a c

theorem Wf_insertIfNew (g : DBGraph) (ks : Seq) (hW : Wf g) :
    Wf (insertIfNew g ks) := by
  obtain ⟨w1, w2, w3, w4⟩ := hW
  unfold insertIfNew
  split
  · exact ⟨w1, w2, w3, w4⟩
  · have hfresh : g.nextId ∉ dKeys g.heap := fun hm =>
      absurd (w2 g.nextId hm) (lt_irrefl _)
    have hkeys : dKeys (g.heap ++ [(g.nextId, (⟨ks, [], []⟩ : DBGnode))]) =
        dKeys g.heap ++ [g.nextId] := by simp [dKeys]
    refine ⟨?_, ?_, ?_, ?_⟩
    · show (dKeys (g.heap ++ [(g.nextId, ⟨ks, [], []⟩)])).Nodup
      rw [hkeys, List.nodup_append]
      exact ⟨w1, List.nodup_singleton _, fun a ha hb => by
        rw [List.mem_singleton] at hb
        subst hb
        exact hfresh ha⟩
    · intro j hj
      show j < g.nextId + 1
      rw [hkeys, List.mem_append] at hj
      rcases hj with hj | hj
      · exact (w2 j hj).trans (by omega)
      · rw [List.mem_singleton] at hj
        omega
    · intro s i hsi
      show (dGet (g.heap ++ [(g.nextId, ⟨ks, [], []⟩)]) i).isSome
      have hnone : dGet g.heap g.nextId = none := dGet_none_of_not_mem_keys _ _ hfresh
      rw [dGet_append_single _ _ _ i hfresh]
      have hsi' : dGet (dSet g.nodes ks g.nextId) s = some i := hsi
      by_cases hs : s = ks
      · subst hs
        rw [dGet_dSet_self] at hsi'
        injection hsi' with hsi'
        rw [if_pos hsi'.symm]
        rfl
      · rw [dGet_dSet_ne _ _ _ _ hs] at hsi'
        have hold := w3 s i hsi'
        have hine : i ≠ g.nextId := fun he => by
          rw [he, hnone] at hold
          simp at hold
        rw [if_neg hine]
        exact hold
    · intro j n hjn
      have hjn' : dGet (g.heap ++ [(g.nextId, (⟨ks, [], []⟩ : DBGnode))]) j = some n := hjn
      rw [dGet_append_single _ _ _ j hfresh] at hjn'
      by_cases hj : j = g.nextId
      · rw [if_pos hj] at hjn'
        injection hjn' with hjn'
        subst hjn'
        exact ⟨List.nodup_nil, List.nodup_nil⟩
      · rw [if_neg hj] at hjn'
        exact w4 j n hjn' 

theorem SymWf_wireTo_fold (kid : Nat) :
    ∀ (l : List Seq) (g : DBGraph), Sym g → Wf g → (dGet g.heap kid).isSome →
      Sym (l.foldl (fun h p => wireTo h kid p) g) ∧
      Wf (l.foldl (fun h p => wireTo h kid p) g) ∧
      (dGet (l.foldl (fun h p => wireTo h kid p) g).heap kid).isSome := by
  intro l
  induction l with
  | nil => intro g hS hW hk; exact ⟨hS, hW, hk⟩
  | cons p t ih =>
    intro g hS hW hk
    rw [List.foldl_cons]
    exact ih _ (Sym_wireTo g kid p hS hW hk) (Wf_wireTo g kid p hW)
      (by rw [heapSome_wireTo]; exact hk)

theorem SymWf_wireFrom_fold (kid : Nat) :
    ∀ (l : List Seq) (g : DBGraph), Sym g → Wf g → (dGet g.heap kid).isSome →
      Sym (l.foldl (fun h p => wireFrom h kid p) g) ∧
      Wf (l.foldl (fun h p => wireFrom h kid p) g) ∧
      (dGet (l.foldl (fun h p => wireFrom h kid p) g).heap kid).isSome := by
  intro l
  induction l with
  | nil => intro g hS hW hk; exact ⟨hS, hW, hk⟩
  | cons p t ih =>
    intro g hS hW hk
    rw [List.foldl_cons]
    exact ih _ (Sym_wireFrom g kid p hS hW hk) (Wf_wireFrom g kid p hW)
      (by rw [heapSome_wireFrom]; exact hk)

theorem SymWf_processKmer (g : DBGraph) (ks : Seq) (hS : Sym g) (hW : Wf g) :
    Sym (processKmer g ks) ∧ Wf (processKmer g ks) := by
  have hS1 := Sym_insertIfNew g ks hS hW
  have hW1 := Wf_insertIfNew g ks hW
  unfold processKmer
  simp only
  split
  next kid heq =>
    have hk : (dGet (insertIfNew g ks).heap kid).isSome := hW1.2.2.1 _ kid heq
    have h2 := SymWf_wireTo_fold kid
      (get_potential_to (getNode (insertIfNew g ks) kid).seq) (insertIfNew g ks) hS1 hW1 hk
    have h3 := SymWf_wireFrom_fold kid
      (get_potential_from (getNode (insertIfNew g ks) kid).seq) _ h2.1 h2.2.1 h2.2.2
    exact ⟨h3.1, h3.2.1⟩
  next => exact ⟨hS1, hW1⟩

theorem SymWf_add_kmersGo (k : Nat) :
    ∀ (ks : List Seq) (g : DBGraph), Sym g → Wf g →
      Sym (add_kmersGo k g ks).1 ∧ Wf (add_kmersGo k g ks).1 := by
  intro ks
  induction ks with
  | nil => intro g hS hW; exact ⟨hS, hW⟩
  | cons s t ih =>
    intro g hS hW
    unfold add_kmersGo
    split
    · exact ⟨hS, hW⟩
    · have h := SymWf_processKmer g s hS hW
      exact ih _ h.1 h.2

theorem SymWf_add_kmers (g : DBGraph) (ks : List Seq) (hS : Sym g) (hW : Wf g) :
    Sym (add_kmers g ks).1 ∧ Wf (add_kmers g ks).1 := by
  unfold add_kmers
  split
  · exact ⟨hS, hW⟩
  · cases ks with
    | nil => exact ⟨hS, hW⟩
    | cons f t =>
      simp only
      split
      · exact SymWf_add_kmersGo _ (f :: t) { g with kmerlen := some f.length } hS hW
      · exact SymWf_add_kmersGo _ (f :: t) g hS hW

theorem Wf_transferStep (x r : Nat) (g : DBGraph) (p : Nat × Nat) (hW : Wf g) :
    Wf (transferStep x r g p) := by
  unfold transferStep
  exact Wf_updNode _ _ _
    (Wf_updNode _ _ _
      (Wf_updNode _ _ _ hW (fun n h1 h2 => ⟨dKeys_dSet_nodup _ _ _ h1, h2⟩))
      (fun n h1 h2 => ⟨h1, dKeys_dPop_nodup _ _ h2⟩))
    (fun n h1 h2 => ⟨h1, dKeys_dSet_nodup _ _ _ h2⟩)

theorem Wf_fold_transfer (x r : Nat) :
    ∀ (l : WMap) (g : DBGraph), Wf g → Wf (l.foldl (transferStep x r) g) := by
  intro l
  induction l with
  | nil => intro g hW; exact hW
  | cons p t ih =>
    intro g hW
    rw [List.foldl_cons]
    exact ih _ (Wf_transferStep x r g p hW)

theorem Wf_mergeG2 (g : DBGraph) (x b : Nat) (hW : Wf g) : Wf (mergeG2 g x b) := by
  unfold mergeG2
  exact Wf_updNode _ _ _
    (Wf_updNode _ _ _ hW (fun n h1 h2 => ⟨h1, h2⟩))
    (fun n h1 h2 => ⟨dKeys_dPop_nodup _ _ h1, h2⟩)

theorem Wf_doMerge (g : DBGraph) (x b : Nat) (hW : Wf g) : Wf (doMerge g x b) := by
  unfold doMerge
  exact Wf_updNode _ _ _
    (Wf_fold_transfer x b _ _ (Wf_mergeG2 g x b hW))
    (fun n h1 h2 => ⟨List.nodup_nil, List.nodup_nil⟩)

theorem doMerge_Sym (g : DBGraph) (x b wb : Nat) (hS : Sym g) (hW : Wf g)
    (hcan : can_extend_next g x = true)
    (hsucc : (getNode g x).edges_to = [(b, wb)]) :
    Sym (doMerge g x b) := by
  obtain ⟨b1, wb1, wx, he1, hne, hf⟩ := (can_extend_next_iff g x).1 hcan
  rw [hsucc] at he1
  injection he1 with h1 h2
  injection h1 with hb1 hw1
  subst hb1
  subst hw1
  have hwx : wx = wb := by
    have h1 := hS x b
    rw [hsucc, hf] at h1
    have hl : dGet [(b, wb)] b = some wb := by simp [dGet]
    have hr : dGet [(x, wx)] x = some wx := by simp [dGet]
    rw [hl, hr] at h1
    injection h1 with h1
    exact h1.symm
  rw [hwx] at hf
  have hx : (dGet g.heap x).isSome := by
    cases ho : dGet g.heap x with
    | none =>
      rw [getNode_absent g x ho] at hsucc
      exact absurd hsucc (by simp [dummyNode])
    | some nx => rfl
  have hb : (dGet g.heap b).isSome := by
    cases ho : dGet g.heap b with
    | none =>
      rw [getNode_absent g b ho] at hf
      exact absurd hf (by simp [dummyNode])
    | some nb => rfl
  have hbnot : b ∉ dKeys (getNode g b).edges_to := by
    intro hmem
    obtain ⟨w', hw'⟩ := Option.isSome_iff_exists.1 (dGet_isSome_of_mem_keys _ _ hmem)
    have hsym := hS b b
    rw [hw', hf] at hsym
    have : dGet [(x, wb)] b = none := by simp [dGet, hne]
    rw [this] at hsym
    simp at hsym
  have hclosed : ∀ c ∈ dKeys (getNode g b).edges_to, (dGet g.heap c).isSome := by
    intro c hmem
    obtain ⟨w', hw'⟩ := Option.isSome_iff_exists.1 (dGet_isSome_of_mem_keys _ _ hmem)
    have hsym := hS b c
    rw [hw'] at hsym
    cases ho : dGet g.heap c with
    | some n => rfl
    | none =>
      rw [getNode_absent g c ho] at hsym
      simp [dummyNode, dGet] at hsym
  have hnodup : (dKeys (getNode g b).edges_to).Nodup := by
    obtain ⟨nb, hnb⟩ := Option.isSome_iff_exists.1 hb
    rw [getNode_eq_of_dGet g b nb hnb]
    exact (hW.2.2.2 b nb hnb).1
  have hEto_x := doMerge_eto_x g x b wb hx hne hsucc hnodup
  have hclear := doMerge_cleared g x b hb
  intro a c
  by_cases hax : a = x
  · subst hax
    rw [hEto_x]
    by_cases hcb : c = b
    · subst hcb
      rw [hclear.2, dGet_none_of_not_mem_keys _ _ hbnot]
      rfl
    · by_cases hcmem : c ∈ dKeys (getNode g b).edges_to
      · obtain ⟨wc, hwc⟩ := Option.isSome_iff_exists.1 (dGet_isSome_of_mem_keys _ _ hcmem)
        rw [hwc, doMerge_efrom_mem g a b c wc hcb hne hwc hnodup (hclosed c hcmem),
          dGet_dSet_self]
        have hzero : dGet (getNode g c).edges_from a = none := by
          rw [← hS a c, hsucc]
          simp [dGet, hcb]
        rw [hzero]
        simp
      · rw [dGet_none_of_not_mem_keys _ _ hcmem,
          doMerge_efrom_other g a b c hcb hne hcmem, ← hS a c, hsucc]
        simp [dGet, hcb]
  · by_cases hab : a = b
    · subst hab
      rw [hclear.1]
      by_cases hcb : c = a
      · subst hcb
        rw [hclear.2]
      · by_cases hcmem : c ∈ dKeys (getNode g a).edges_to
        · obtain ⟨wc, hwc⟩ := Option.isSome_iff_exists.1 (dGet_isSome_of_mem_keys _ _ hcmem)
          obtain ⟨nc, hnc⟩ := Option.isSome_iff_exists.1 (hclosed c hcmem)
          rw [doMerge_efrom_mem g x a c wc hcb hne hwc hnodup (hclosed c hcmem),
            dGet_dSet_ne _ _ _ _ hne,
            dGet_dPop_self _ _ (by
              rw [getNode_eq_of_dGet g c nc hnc]
              exact (hW.2.2.2 c nc hnc).2)]
          rfl
        · rw [doMerge_efrom_other g x a c hcb hne hcmem, ← hS a c,
            dGet_none_of_not_mem_keys _ _ hcmem]
          rfl
    · rw [doMerge_eto_other g x b a hax hab]
      by_cases hcb : c = b
      · subst hcb
        rw [hclear.2, hS a c, hf]
        simp [dGet, hax]
      · by_cases hcmem : c ∈ dKeys (getNode g b).edges_to
        · obtain ⟨wc, hwc⟩ := Option.isSome_iff_exists.1 (dGet_isSome_of_mem_keys _ _ hcmem)
          rw [doMerge_efrom_mem g x b c wc hcb hne hwc hnodup (hclosed c hcmem),
            dGet_dSet_ne _ _ _ _ hax, dGet_dPop_ne _ _ _ hab]
          exact hS a c
        · rw [doMerge_efrom_other g x b c hcb hne hcmem]
          exact hS a c

theorem SymWf_extend_next (g : DBGraph) (x : Nat) (hS : Sym g) (hW : Wf g) :
    Sym (extend_next g x).1 ∧ Wf (extend_next g x).1 := by
  cases hcan : can_extend_next g x with
  | false =>
    rw [extend_next_of_false g x hcan]
    exact ⟨hS, hW⟩
  | true =>
    obtain ⟨b, wb, wx, he, hne, hf⟩ := (can_extend_next_iff g x).1 hcan
    rw [extend_next_of_true g x b wb hcan he]
    exact ⟨doMerge_Sym g x b wb hS hW hcan he, Wf_doMerge g x b hW⟩

end SymWfLemmas

section IdemLemmas

theorem mem_dSet {κ α : Type} [DecidableEq κ] (l : List (κ × α)) (k : κ) (v : α)
    (e : κ × α) (h : e ∈ dSet l k v) : e ∈ l ∨ e = (k, v) := by
  induction l with
  | nil =>
    rw [dSet] at h
    right
    simpa using h
  | cons p t ih =>
    obtain ⟨k0, v0⟩ := p
    by_cases h1 : k = k0
    · subst h1
      rw [dSet, if_pos rfl, List.mem_cons] at h
      rcases h with h | h
      · right; exact h
      · left; exact List.mem_cons_of_mem _ h
    · rw [dSet, if_neg h1, List.mem_cons] at h
      rcases h with h | h
      · left; rw [h]; exact List.mem_cons_self _ _
      · rcases ih h with h2 | h2
        · left; exact List.mem_cons_of_mem _ h2
        · right; exact h2

theorem dPop_sublist {κ α : Type} [DecidableEq κ] (l : List (κ × α)) (k : κ) :
    (dPop l k).Sublist l := by
  induction l with
  | nil => simp [dPop]
  | cons p t ih =>
    obtain ⟨k0, v0⟩ := p
    by_cases h1 : k = k0
    · rw [dPop, if_pos h1]
      exact List.sublist_cons_self _ _
    · rw [dPop, if_neg h1]
      exact List.Sublist.cons₂ _ ih

theorem extend_next_some_inv (g g1 : DBGraph) (x r : Nat)
    (h : extend_next g x = (g1, some r)) :
    can_extend_next g x = true ∧
    (∃ wr, (getNode g x).edges_to = [(r, wr)]) ∧ g1 = doMerge g x r := by
  by_cases hcan : can_extend_next g x = true
  · obtain ⟨b, wb, wx, he, _, _⟩ := (can_extend_next_iff g x).1 hcan
    rw [extend_next_of_true g x b wb hcan he] at h
    injection h with h1 h2
    injection h2 with h2
    subst h2
    exact ⟨hcan, ⟨wb, he⟩, h1.symm⟩
  · rw [extend_next_of_false g x (by simpa using hcan)] at h
    injection h with h1 h2
    simp at h2

theorem extend_next_none_inv (g g1 : DBGraph) (x : Nat)
    (h : extend_next g x = (g1, none)) :
    can_extend_next g x = false ∧ g1 = g := by
  by_cases hcan : can_extend_next g x = true
  · obtain ⟨b, wb, wx, he, _, _⟩ := (can_extend_next_iff g x).1 hcan
    rw [extend_next_of_true g x b wb hcan he] at h
    injection h with h1 h2
    simp at h2
  · rw [extend_next_of_false g x (by simpa using hcan)] at h
    injection h with h1 h2
    exact ⟨by simpa using hcan, h1.symm⟩

/-- The key preservation step: a merge by a different node `z` can never
make `can_extend_next` become true for `x`. -/
theorem notCan_doMerge (g : DBGraph) (z r wr x : Nat) (hzx : x ≠ z)
    (hcan : can_extend_next g z = true)
    (hsucc : (getNode g z).edges_to = [(r, wr)])
    (hnc : can_extend_next g x = false) :
    can_extend_next (doMerge g z r) x = false := by
  obtain ⟨r1, wr1, wz, he1, hne, hf⟩ := (can_extend_next_iff g z).1 hcan
  rw [hsucc] at he1
  injection he1 with h1 _
  injection h1 with hr1 hw1
  subst hr1
  subst hw1
  have hr : (dGet g.heap r).isSome := by
    cases ho : dGet g.heap r with
    | none =>
      rw [getNode_absent g r ho] at hf
      exact absurd hf (by simp [dummyNode])
    | some nr => rfl
  by_contra hcontra
  have hcan' : can_extend_next (doMerge g z r) x = true := by
    cases hcc : can_extend_next (doMerge g z r) x with
    | false => exact absurd hcc hcontra
    | true => rfl
  obtain ⟨y, wy, wx2, hey, hyx, hfy⟩ := (can_extend_next_iff _ x).1 hcan'
  have hclear := doMerge_cleared g z r hr
  have hxr : x ≠ r := by
    intro hxr
    rw [hxr] at hey
    rw [hclear.1] at hey
    simp at hey
  have hey' : (getNode g x).edges_to = [(y, wy)] := by
    rw [← doMerge_eto_other g z r x hzx hxr]
    exact hey
  have hyr : y ≠ r := by
    intro hyr
    rw [hyr, hclear.2] at hfy
    simp at hfy
  by_cases hymem : y ∈ dKeys (getNode g r).edges_to
  · have hysome : (dGet g.heap y).isSome := by
      cases ho : dGet g.heap y with
      | none =>
        have ho' : dGet (doMerge g z r).heap y = none := by
          cases hd : dGet (doMerge g z r).heap y with
          | none => rfl
          | some ny =>
            have := heapSome_doMerge g z r y
            rw [hd, ho] at this
            simp at this
        rw [getNode_absent _ y ho'] at hfy
        exact absurd hfy (by simp [dummyNode])
      | some ny => rfl
    have hzin := doMerge_efrom_hasx g z r y hyr hne hymem hysome
    rw [hfy] at hzin
    rw [dKeys_cons] at hzin
    simp at hzin
    exact hzx hzin.symm
  · have hfy' : (getNode g y).edges_from = [(x, wx2)] := by
      rw [← doMerge_efrom_other g z r y hyr hne hymem]
      exact hfy
    have : can_extend_next g x = true :=
      (can_extend_next_iff g x).2 ⟨y, wy, wx2, hey', hyx, hfy'⟩
    rw [this] at hnc
    simp at hnc

theorem can_extend_next_popNodes (g : DBGraph) (s : Seq) (x : Nat) :
    can_extend_next (popNodes g s) x = can_extend_next g x := rfl

theorem extendLoop_notCan_pres (x : Nat) :
    ∀ (fuel : Nat) (g g' : DBGraph) (z : Nat) (c : Nat), x ≠ z →
      extendLoop fuel g z = some (g', c) →
      can_extend_next g x = false → can_extend_next g' x = false := by
  intro fuel
  induction fuel with
  | zero => intro g g' z c _ h; simp [extendLoop] at h
  | succ n ih =>
    intro g g' z c hxz h hnc
    unfold extendLoop at h
    cases he : extend_next g z with
    | mk g1 o =>
      rw [he] at h
      cases o with
      | none =>
        injection h with h
        have h1 : g = g' := congrArg Prod.fst h
        rw [← h1]
        exact hnc
      | some r =>
        obtain ⟨hcanz, ⟨wr, hsucc⟩, hg1⟩ := extend_next_some_inv g g1 z r he
        subst hg1
        have hm : Option.map (fun p => (p.1, p.2 + 1))
            (extendLoop n (popNodes (doMerge g z r) (getNode (doMerge g z r) r).seq) z)
            = some (g', c) := h
        cases hrec : extendLoop n (popNodes (doMerge g z r) (getNode (doMerge g z r) r).seq) z with
        | none => rw [hrec] at hm; simp at hm
        | some pr =>
          rw [hrec] at hm
          injection hm with hm
          have hstep : can_extend_next
              (popNodes (doMerge g z r) (getNode (doMerge g z r) r).seq) x = false := by
            rw [can_extend_next_popNodes]
            exact notCan_doMerge g z r wr x hxz hcanz hsucc hnc
          have hres := ih _ pr.1 z pr.2 hxz (by rw [hrec]) hstep
          have h1 : pr.1 = g' := congrArg Prod.fst hm
          rw [h1] at hres
          exact hres

theorem extendLoop_post (z : Nat) :
    ∀ (fuel : Nat) (g g' : DBGraph) (c : Nat),
      extendLoop fuel g z = some (g', c) → can_extend_next g' z = false := by
  intro fuel
  induction fuel with
  | zero => intro g g' c h; simp [extendLoop] at h
  | succ n ih =>
    intro g g' c h
    unfold extendLoop at h
    cases he : extend_next g z with
    | mk g1 o =>
      rw [he] at h
      cases o with
      | none =>
        injection h with h
        have h1 : g = g' := congrArg Prod.fst h
        obtain ⟨hnc, hg⟩ := extend_next_none_inv g g1 z he
        rw [← h1]
        exact hnc
      | some r =>
        have hm : Option.map (fun p => (p.1, p.2 + 1))
            (extendLoop n (popNodes g1 (getNode g1 r).seq) z) = some (g', c) := h
        cases hrec : extendLoop n (popNodes g1 (getNode g1 r).seq) z with
        | none => rw [hrec] at hm; simp at hm
        | some pr =>
          rw [hrec] at hm
          injection hm with hm
          have hres := ih _ pr.1 pr.2 (by rw [hrec])
          have h1 : pr.1 = g' := congrArg Prod.fst hm
          rw [h1] at hres
          exact hres

theorem extendLoop_values_sub (z : Nat) :
    ∀ (fuel : Nat) (g g' : DBGraph) (c : Nat),
      extendLoop fuel g z = some (g', c) →
      ∀ i, i ∈ g'.nodes.map Prod.snd → i ∈ g.nodes.map Prod.snd := by
  intro fuel
  induction fuel with
  | zero => intro g g' c h; simp [extendLoop] at h
  | succ n ih =>
    intro g g' c h i hi
    unfold extendLoop at h
    cases he : extend_next g z with
    | mk g1 o =>
      rw [he] at h
      cases o with
      | none =>
        injection h with h
        have h1 : g = g' := congrArg Prod.fst h
        rw [← h1] at hi
        exact hi
      | some r =>
        obtain ⟨hcanz, ⟨wr, hsucc⟩, hg1⟩ := extend_next_some_inv g g1 z r he
        have hm : Option.map (fun p => (p.1, p.2 + 1))
            (extendLoop n (popNodes g1 (getNode g1 r).seq) z) = some (g', c) := h
        cases hrec : extendLoop n (popNodes g1 (getNode g1 r).seq) z with
        | none => rw [hrec] at hm; simp at hm
        | some pr =>
          rw [hrec] at hm
          injection hm with hm
          have h1 : pr.1 = g' := congrArg Prod.fst hm
          have hstep := ih _ pr.1 pr.2 (by rw [hrec]) i (by rw [h1]; exact hi)
          have hsub : (popNodes g1 (getNode g1 r).seq).nodes.map Prod.snd ⊆
              g1.nodes.map Prod.snd :=
            List.Sublist.subset (List.Sublist.map _ (dPop_sublist _ _))
          have : i ∈ g1.nodes.map Prod.snd := hsub hstep
          rw [hg1] at this
          have hnodes : (doMerge g z r).nodes = g.nodes := by
            have hstep2 : ∀ (h : DBGraph) (p : Nat × Nat),
                (fun h => h.nodes) (transferStep z r h p) = (fun h => h.nodes) h := by
              intro h p
              rfl
            have h2 := foldl_pres (fun h => h.nodes) (transferStep z r) hstep2
              (getNode (mergeG2 g z r) r).edges_to (mergeG2 g z r)
            show (List.foldl (transferStep z r) (mergeG2 g z r)
                (getNode (mergeG2 g z r) r).edges_to).nodes = g.nodes
            exact h2
          rw [hnodes] at this
          exact this

theorem simplifyPass_notCan_pres (x : Nat) :
    ∀ (order : List Nat) (g g' : DBGraph) (c : Nat), x ∉ order →
      simplifyPass g order = some (g', c) →
      can_extend_next g x = false → can_extend_next g' x = false := by
  intro order
  induction order with
  | nil =>
    intro g g' c _ h hnc
    rw [simplifyPass] at h
    injection h with h
    have h1 : g = g' := congrArg Prod.fst h
    rw [← h1]
    exact hnc
  | cons z rest ih =>
    intro g g' c hx h hnc
    rw [List.mem_cons] at hx
    push_neg at hx
    unfold simplifyPass at h
    cases hl : extendLoop (edgeTot g + 1) g z with
    | none => rw [hl] at h; simp at h
    | some pr =>
      rw [hl] at h
      have hm : Option.map (fun p => (p.1, pr.2 + p.2)) (simplifyPass pr.1 rest)
          = some (g', c) := h
      cases hp : simplifyPass pr.1 rest with
      | none => rw [hp] at hm; simp at hm
      | some qr =>
        rw [hp] at hm
        injection hm with hm
        have h1 := extendLoop_notCan_pres x _ g pr.1 z pr.2 hx.1 (by rw [hl]) hnc
        have h2 := ih pr.1 qr.1 qr.2 hx.2 (by rw [hp]) h1
        have hf : qr.1 = g' := congrArg Prod.fst hm
        rw [hf] at h2
        exact h2

theorem simplifyPass_values_sub :
    ∀ (order : List Nat) (g g' : DBGraph) (c : Nat),
      simplifyPass g order = some (g', c) →
      ∀ i, i ∈ g'.nodes.map Prod.snd → i ∈ g.nodes.map Prod.snd := by
  intro order
  induction order with
  | nil =>
    intro g g' c h i hi
    rw [simplifyPass] at h
    injection h with h
    have h1 : g = g' := congrArg Prod.fst h
    rw [← h1] at hi
    exact hi
  | cons z rest ih =>
    intro g g' c h i hi
    unfold simplifyPass at h
    cases hl : extendLoop (edgeTot g + 1) g z with
    | none => rw [hl] at h; simp at h
    | some pr =>
      rw [hl] at h
      have hm : Option.map (fun p => (p.1, pr.2 + p.2)) (simplifyPass pr.1 rest)
          = some (g', c) := h
      cases hp : simplifyPass pr.1 rest with
      | none => rw [hp] at hm; simp at hm
      | some qr =>
        rw [hp] at hm
        injection hm with hm
        have hf : qr.1 = g' := congrArg Prod.fst hm
        have h2 := ih pr.1 qr.1 qr.2 (by rw [hp]) i (by rw [hf]; exact hi)
        exact extendLoop_values_sub z _ g pr.1 pr.2 (by rw [hl]) i h2

theorem simplifyPass_post :
    ∀ (order : List Nat) (g g' : DBGraph) (c : Nat), order.Nodup →
      simplifyPass g order = some (g', c) →
      ∀ x ∈ order, can_extend_next g' x = false := by
  intro order
  induction order with
  | nil => intro g g' c _ _ x hx; simp at hx
  | cons z rest ih =>
    intro g g' c hnd h x hx
    rw [List.nodup_cons] at hnd
    unfold simplifyPass at h
    cases hl : extendLoop (edgeTot g + 1) g z with
    | none => rw [hl] at h; simp at h
    | some pr =>
      rw [hl] at h
      have hm : Option.map (fun p => (p.1, pr.2 + p.2)) (simplifyPass pr.1 rest)
          = some (g', c) := h
      cases hp : simplifyPass pr.1 rest with
      | none => rw [hp] at hm; simp at hm
      | some qr =>
        rw [hp] at hm
        injection hm with hm
        rw [List.mem_cons] at hx
        rcases hx with hx | hx
        · subst hx
          have h1 := extendLoop_post x _ g pr.1 pr.2 (by rw [hl])
          have h2 := simplifyPass_notCan_pres x rest pr.1 qr.1 qr.2 hnd.1 (by rw [hp]) h1
          have hf : qr.1 = g' := congrArg Prod.fst hm
          rw [hf] at h2
          exact h2
        · have h2 := ih pr.1 qr.1 qr.2 hnd.2 (by rw [hp]) x hx
          have hf : qr.1 = g' := congrArg Prod.fst hm
          rw [hf] at h2
          exact h2

theorem extendLoop_id (fuel : Nat) (g : DBGraph) (z : Nat)
    (h : can_extend_next g z = false) (hf : 1 ≤ fuel) :
    extendLoop fuel g z = some (g, 0) := by
  cases fuel with
  | zero => omega
  | succ n =>
    unfold extendLoop
    rw [extend_next_of_false g z h]

theorem simplifyPass_id :
    ∀ (order : List Nat) (g : DBGraph),
      (∀ x ∈ order, can_extend_next g x = false) →
      simplifyPass g order = some (g, 0) := by
  intro order
  induction order with
  | nil => intro g _; rfl
  | cons z rest ih =>
    intro g h
    unfold simplifyPass
    rw [extendLoop_id (edgeTot g + 1) g z (h z (List.mem_cons_self _ _)) (by omega)]
    simp only
    rw [ih g (fun x hx => h x (List.mem_cons_of_mem _ hx))]
    rfl

theorem fold_dSet_mem {β : Type} (f : β → Seq × Nat) :
    ∀ (L : List β) (acc : List (Seq × Nat)) (e : Seq × Nat),
      e ∈ L.foldl (fun m p => dSet m (f p).1 (f p).2) acc →
      e ∈ acc ∨ ∃ p ∈ L, e = f p := by
  intro L
  induction L with
  | nil => intro acc e h; exact Or.inl h
  | cons p t ih =>
    intro acc e h
    rw [List.foldl_cons] at h
    rcases ih _ e h with h1 | h1
    · rcases mem_dSet _ _ _ _ h1 with h2 | h2
      · exact Or.inl h2
      · exact Or.inr ⟨p, List.mem_cons_self _ _, by rw [h2]⟩
    · obtain ⟨q, hq, he⟩ := h1
      exact Or.inr ⟨q, List.mem_cons_of_mem _ hq, he⟩

theorem fold_dSet_nodupKeys {β : Type} (f : β → Seq × Nat) :
    ∀ (L : List β) (acc : List (Seq × Nat)), (dKeys acc).Nodup →
      (dKeys (L.foldl (fun m p => dSet m (f p).1 (f p).2) acc)).Nodup := by
  intro L
  induction L with
  | nil => intro acc h; exact h
  | cons p t ih =>
    intro acc h
    rw [List.foldl_cons]
    exact ih _ (dKeys_dSet_nodup _ _ _ h)

theorem fold_insert_self (g : DBGraph) :
    ∀ (l acc : List (Seq × Nat)),
      (∀ q ∈ l, (getNode g q.2).seq = q.1) → (dKeys (acc ++ l)).Nodup →
      l.foldl (fun m p => dSet m (getNode g p.2).seq p.2) acc = acc ++ l := by
  intro l
  induction l with
  | nil => intro acc _ _; simp
  | cons p t ih =>
    intro acc hq hnd
    rw [List.foldl_cons]
    have hp : (getNode g p.2).seq = p.1 := hq p (List.mem_cons_self _ _)
    have hfresh : p.1 ∉ dKeys acc := by
      intro hmem
      have : dKeys (acc ++ p :: t) = dKeys acc ++ dKeys (p :: t) := by simp [dKeys]
      rw [this, List.nodup_append] at hnd
      exact hnd.2.2 hmem (by rw [dKeys_cons]; exact List.mem_cons_self _ _)
    have hstep : dSet acc (getNode g p.2).seq p.2 = acc ++ [p] := by
      rw [hp, dKeys_dSet_absent _ _ _ (dGet_none_of_not_mem_keys _ _ hfresh)]
    rw [hstep, ih (acc ++ [p]) (fun q hu => hq q (List.mem_cons_of_mem _ hu))
      (by rw [List.append_assoc]; simpa using hnd), List.append_assoc]
    rfl

end IdemLemmas

section C8Lemmas

theorem dGet_append_of_some {κ α : Type} [DecidableEq κ]
    (h l : List (κ × α)) (i : κ) (n : α)
    (hg : dGet h i = some n) : dGet (h ++ l) i = some n := by
  induction h with
  | nil => simp [dGet] at hg
  | cons p t ih =>
    obtain ⟨k0, v0⟩ := p
    by_cases he : i = k0
    · subst he
      simp [dGet] at hg ⊢
      exact hg
    · rw [dGet, if_neg he] at hg
      show dGet ((k0, v0) :: (t ++ l)) i = some n
      rw [dGet, if_neg he]
      exact ih hg

theorem dGet_append_cases {κ α : Type} [DecidableEq κ]
    (h : List (κ × α)) (i0 : κ) (n0 : α) (j : κ) (n : α)
    (hfresh : i0 ∉ dKeys h) (hj : dGet (h ++ [(i0, n0)]) j = some n) :
    dGet h j = some n ∨ (j = i0 ∧ n = n0) := by
  rw [dGet_append_single h i0 n0 j hfresh] at hj
  by_cases he : j = i0
  · rw [if_pos he] at hj
    injection hj with hj
    exact Or.inr ⟨he, hj.symm⟩
  · rw [if_neg he] at hj
    exact Or.inl hj

theorem dKeys_dSet_sub {κ α : Type} [DecidableEq κ]
    (l : List (κ × α)) (k : κ) (v : α) (c : κ)
    (h : c ∈ dKeys (dSet l k v)) : c ∈ dKeys l ∨ c = k := by
  cases hk : dGet l k with
  | some w =>
    rw [dKeys_dSet_mem l k v (by rw [hk]; rfl)] at h
    exact Or.inl h
  | none =>
    rw [dKeys_dSet_absent l k v hk] at h
    have he : dKeys (l ++ [(k, v)]) = dKeys l ++ [k] := by simp [dKeys]
    rw [he, List.mem_append, List.mem_singleton] at h
    exact h

theorem dGet_heap_updNode (g : DBGraph) (i : Nat) (f : DBGnode → DBGnode) (c : Nat) :
    dGet (updNode g i f).heap c =
      if c = i then (dGet g.heap c).map f else dGet g.heap c := by
  show dGet (dUpd g.heap i f) c = _
  by_cases he : c = i
  · subst he
    rw [if_pos rfl]
    exact dGet_dUpd_self _ _ _
  · rw [if_neg he]
    exact dGet_dUpd_ne _ _ _ _ he

theorem heap_seqPres_updNode (g : DBGraph) (i : Nat) (f : DBGnode → DBGnode)
    (hf1 : ∀ n, (f n).seq = n.seq) :
    ∀ c cn, dGet g.heap c = some cn →
      ∃ cn2, dGet (updNode g i f).heap c = some cn2 ∧ cn2.seq = cn.seq := by
  intro c cn hcn
  rw [dGet_heap_updNode]
  by_cases he : c = i
  · rw [if_pos he, hcn]
    exact ⟨f cn, rfl, hf1 cn⟩
  · rw [if_neg he]
    exact ⟨cn, hcn, rfl⟩

theorem c7_transport (g g2 : DBGraph) (hn : g2.nodes = g.nodes)
    (hheap : ∀ c cn, dGet g.heap c = some cn →
      ∃ cn2, dGet g2.heap c = some cn2 ∧ cn2.seq = cn.seq)
    (i0 : Nat) (n : DBGnode)
    (hold : (dKeys n.edges_to).Nodup ∧ ∀ c ∈ dKeys n.edges_to,
      ∃ cn, dGet g.heap c = some cn ∧ dGet g.nodes cn.seq = some c ∧
        cn.seq ∈ get_potential_to n.seq) :
    (dKeys n.edges_to).Nodup ∧ ∀ c ∈ dKeys n.edges_to,
      ∃ cn, dGet g2.heap c = some cn ∧ dGet g2.nodes cn.seq = some c ∧
        cn.seq ∈ get_potential_to n.seq := by
  refine ⟨hold.1, ?_⟩
  intro c hc
  obtain ⟨cn, hcn, hreg, hpot⟩ := hold.2 c hc
  obtain ⟨cn2, hcn2, hseq⟩ := hheap c cn hcn
  exact ⟨cn2, hcn2, by rw [hn, hseq]; exact hreg, by rw [hseq]; exact hpot⟩

theorem GoodG_updNode_of_c7 (g : DBGraph) (i : Nat) (f : DBGnode → DBGnode)
    (hf1 : ∀ n, (f n).seq = n.seq) (hG : GoodG g)
    (h7 : ∀ i0 n, dGet (updNode g i f).heap i0 = some n →
      (dKeys n.edges_to).Nodup ∧
      ∀ c ∈ dKeys n.edges_to, ∃ cn, dGet (updNode g i f).heap c = some cn ∧
        dGet (updNode g i f).nodes cn.seq = some c ∧
        cn.seq ∈ get_potential_to n.seq) :
    GoodG (updNode g i f) := by
  obtain ⟨g1, g2, g3, g4, g5, g6, g7⟩ := hG
  refine ⟨?_, ?_, ?_, ?_, g5, g6, h7⟩
  · show (dKeys (dUpd g.heap i f)).Nodup
    rw [dKeys_dUpd]
    exact g1
  · intro j hj
    show j < g.nextId
    apply g2
    have he : dKeys (dUpd g.heap i f) = dKeys g.heap := dKeys_dUpd _ _ _
    rw [← he]
    exact hj
  · intro s i0 hsi
    have hsi2 : dGet g.nodes s = some i0 := hsi
    obtain ⟨n, hn, hns⟩ := g3 s i0 hsi2
    rw [dGet_heap_updNode]
    by_cases he : i0 = i
    · rw [if_pos he, hn]
      exact ⟨f n, rfl, by rw [hf1]; exact hns⟩
    · rw [if_neg he]
      exact ⟨n, hn, hns⟩
  · intro i0 n hlook
    rw [dGet_heap_updNode] at hlook
    by_cases he : i0 = i
    · rw [if_pos he] at hlook
      cases hkn : dGet g.heap i0 with
      | none => rw [hkn] at hlook; simp at hlook
      | some kn =>
        rw [hkn] at hlook
        injection hlook with hn2
        show dGet g.nodes n.seq = some i0
        rw [← hn2, hf1]
        exact g4 i0 kn hkn
    · rw [if_neg he] at hlook
      exact g4 i0 n hlook

theorem GoodG_updNode_pres (g : DBGraph) (i : Nat) (f : DBGnode → DBGnode)
    (hf1 : ∀ n, (f n).seq = n.seq) (hf2 : ∀ n, (f n).edges_to = n.edges_to)
    (hG : GoodG g) : GoodG (updNode g i f) := by
  have g7 := hG.2.2.2.2.2.2
  refine GoodG_updNode_of_c7 g i f hf1 hG ?_
  intro i0 n hlook
  rw [dGet_heap_updNode] at hlook
  by_cases he : i0 = i
  · rw [if_pos he] at hlook
    cases hkn : dGet g.heap i0 with
    | none => rw [hkn] at hlook; simp at hlook
    | some kn =>
      rw [hkn] at hlook
      injection hlook with hn2
      subst hn2
      have hold := g7 i0 kn hkn
      have hold2 : (dKeys (f kn).edges_to).Nodup ∧ ∀ c ∈ dKeys (f kn).edges_to,
          ∃ cn, dGet g.heap c = some cn ∧ dGet g.nodes cn.seq = some c ∧
            cn.seq ∈ get_potential_to (f kn).seq := by
        rw [hf2, hf1]
        exact hold
      exact c7_transport g (updNode g i f) rfl
        (heap_seqPres_updNode g i f hf1) i0 (f kn) hold2
  · rw [if_neg he] at hlook
    exact c7_transport g (updNode g i f) rfl
      (heap_seqPres_updNode g i f hf1) i0 n (g7 i0 n hlook)

theorem GoodG_add_edge_from (g : DBGraph) (si efr : Nat) (hG : GoodG g) :
    GoodG (add_edge_from g si efr) := by
  unfold add_edge_from
  exact GoodG_updNode_pres g si _ (fun n => rfl) (fun n => rfl) hG


theorem GoodG_add_edge_to (g : DBGraph) (kid pid : Nat) (hG : GoodG g)
    (hpn : ∃ pn, dGet g.heap pid = some pn ∧
      pn.seq ∈ get_potential_to (getNode g kid).seq) :
    GoodG (add_edge_to g kid pid) := by
  obtain ⟨pn, hpn1, hpn2⟩ := hpn
  have g4 := hG.2.2.2.1
  have g7 := hG.2.2.2.2.2.2
  unfold add_edge_to
  refine GoodG_updNode_of_c7 g kid _ (fun n => rfl) hG ?_
  intro i0 n hlook
  rw [dGet_heap_updNode] at hlook
  by_cases he : i0 = kid
  · subst he
    rw [if_pos rfl] at hlook
    cases hkn : dGet g.heap i0 with
    | none => rw [hkn] at hlook; simp at hlook
    | some kn =>
      rw [hkn] at hlook
      injection hlook with hn2
      subst hn2
      constructor
      · show (dKeys (dSet kn.edges_to pid ((dGet kn.edges_to pid).getD 0 + 1))).Nodup
        exact dKeys_dSet_nodup _ _ _ (g7 i0 kn hkn).1
      · intro c hc
        have hc2 : c ∈ dKeys (dSet kn.edges_to pid ((dGet kn.edges_to pid).getD 0 + 1)) := hc
        rcases dKeys_dSet_sub _ _ _ _ hc2 with hcold | hcp
        · obtain ⟨cn, hcn, hreg, hpot⟩ := (g7 i0 kn hkn).2 c hcold
          obtain ⟨cn2, hcn2, hseq⟩ := heap_seqPres_updNode g i0
            (fun m => { m with
              edges_to := dSet m.edges_to pid ((dGet m.edges_to pid).getD 0 + 1) })
            (fun m => rfl) c cn hcn
          refine ⟨cn2, hcn2, ?_, ?_⟩
          · show dGet g.nodes cn2.seq = some c
            rw [hseq]
            exact hreg
          · rw [hseq]
            show cn.seq ∈ get_potential_to kn.seq
            exact hpot
        · obtain ⟨pn2, hpn3, hseq⟩ := heap_seqPres_updNode g i0
            (fun m => { m with
              edges_to := dSet m.edges_to pid ((dGet m.edges_to pid).getD 0 + 1) })
            (fun m => rfl) pid pn hpn1
          rw [hcp]
          refine ⟨pn2, hpn3, ?_, ?_⟩
          · show dGet g.nodes pn2.seq = some pid
            rw [hseq]
            exact g4 pid pn hpn1
          · rw [hseq]
            show pn.seq ∈ get_potential_to kn.seq
            have hgk : getNode g i0 = kn := getNode_eq_of_dGet g i0 kn hkn
            rw [← hgk]
            exact hpn2
  · rw [if_neg he] at hlook
    exact c7_transport g
      (updNode g kid (fun m => { m with
        edges_to := dSet m.edges_to pid ((dGet m.edges_to pid).getD 0 + 1) })) rfl
      (heap_seqPres_updNode g kid (fun m => { m with
        edges_to := dSet m.edges_to pid ((dGet m.edges_to pid).getD 0 + 1) })
        (fun m => rfl)) i0 n (g7 i0 n hlook)

theorem wireTo_seq (g : DBGraph) (kid : Nat) (p : Seq) (j : Nat) :
    (getNode (wireTo g kid p) j).seq = (getNode g j).seq := by
  unfold wireTo
  cases dGet g.nodes p with
  | none => rfl
  | some pid =>
    show (getNode (add_edge_to (add_edge_from g pid kid) kid pid) j).seq
      = (getNode g j).seq
    unfold add_edge_to add_edge_from
    exact (getNode_updNode_seqPres _ kid j (fun n => { n with
        edges_to := dSet n.edges_to pid ((dGet n.edges_to pid).getD 0 + 1) })
        (fun n => rfl)).trans
      (getNode_updNode_seqPres g pid j (fun n => { n with
        edges_from := dSet n.edges_from kid ((dGet n.edges_from kid).getD 0 + 1) })
        (fun n => rfl))

theorem wireFrom_seq (g : DBGraph) (kid : Nat) (p : Seq) (j : Nat) :
    (getNode (wireFrom g kid p) j).seq = (getNode g j).seq := by
  unfold wireFrom
  cases dGet g.nodes p with
  | none => rfl
  | some pid =>
    show (getNode (add_edge_from (add_edge_to g pid kid) kid pid) j).seq
      = (getNode g j).seq
    unfold add_edge_to add_edge_from
    exact (getNode_updNode_seqPres _ kid j (fun n => { n with
        edges_from := dSet n.edges_from pid ((dGet n.edges_from pid).getD 0 + 1) })
        (fun n => rfl)).trans
      (getNode_updNode_seqPres g pid j (fun n => { n with
        edges_to := dSet n.edges_to kid ((dGet n.edges_to kid).getD 0 + 1) })
        (fun n => rfl))

theorem wireTo_nodes (g : DBGraph) (kid : Nat) (p : Seq) :
    (wireTo g kid p).nodes = g.nodes := by
  unfold wireTo
  cases dGet g.nodes p <;> rfl

theorem wireFrom_nodes (g : DBGraph) (kid : Nat) (p : Seq) :
    (wireFrom g kid p).nodes = g.nodes := by
  unfold wireFrom
  cases dGet g.nodes p <;> rfl

theorem GoodG_wireTo (g : DBGraph) (kid : Nat) (p : Seq) (hG : GoodG g)
    (hpot : p ∈ get_potential_to (getNode g kid).seq) :
    GoodG (wireTo g kid p) := by
  unfold wireTo
  cases hp : dGet g.nodes p with
  | none => exact hG
  | some pid =>
    have hG1 : GoodG (add_edge_from g pid kid) := GoodG_add_edge_from g pid kid hG
    apply GoodG_add_edge_to _ kid pid hG1
    obtain ⟨pn, hpn, hpseq⟩ := hG.2.2.1 p pid hp
    obtain ⟨pn2, hpn2, hseq2⟩ := heap_seqPres_updNode g pid
      (fun m => { m with
        edges_from := dSet m.edges_from kid ((dGet m.edges_from kid).getD 0 + 1) })
      (fun m => rfl) pid pn hpn
    refine ⟨pn2, hpn2, ?_⟩
    rw [hseq2, hpseq]
    have hseqk : (getNode (add_edge_from g pid kid) kid).seq = (getNode g kid).seq := by
      unfold add_edge_from
      exact getNode_updNode_seqPres _ _ _ _ (fun m => rfl)
    rw [hseqk]
    exact hpot

theorem GoodG_wireFrom (g : DBGraph) (kid : Nat) (p : Seq) (hG : GoodG g)
    (hk : (dGet g.heap kid).isSome)
    (hp : p ∈ get_potential_from (getNode g kid).seq) :
    GoodG (wireFrom g kid p) := by
  unfold wireFrom
  cases hpd : dGet g.nodes p with
  | none => exact hG
  | some pid =>
    obtain ⟨kn, hkn⟩ := Option.isSome_iff_exists.mp hk
    have hkid_seq : getNode g kid = kn := getNode_eq_of_dGet g kid kn hkn
    obtain ⟨pn, hpn, hpnseq⟩ := hG.2.2.1 p pid hpd
    have hpnode : getNode g pid = pn := getNode_eq_of_dGet g pid pn hpn
    rw [hkid_seq, get_potential_from, List.mem_map] at hp
    obtain ⟨b, hb, hpb⟩ := hp
    have hpkey : p ∈ dKeys g.nodes :=
      List.mem_map_of_mem Prod.fst (dGet_mem g.nodes p pid hpd)
    have hkkey : kn.seq ∈ dKeys g.nodes :=
      List.mem_map_of_mem Prod.fst
        (dGet_mem g.nodes kn.seq kid (hG.2.2.2.1 kid kn hkn))
    obtain ⟨k1, hk1, hplen⟩ := hG.2.2.2.2.1 p hpkey
    obtain ⟨k2, hk2, hklen⟩ := hG.2.2.2.2.1 kn.seq hkkey
    have hkk : k1 = k2 := by
      rw [hk1] at hk2
      injection hk2
    have hlen : p.length = kn.seq.dropLast.length + 1 := by
      rw [← hpb]
      rfl
    have hne : kn.seq ≠ [] := by
      intro h0
      have e1 : k1 = List.length (List.dropLast kn.seq) + 1 := by
        rw [← hplen]
        exact hlen
      have e2 : kn.seq.length = k2 := hklen
      rw [h0] at e1 e2
      simp at e1 e2
      omega
    have hlast : kn.seq.getLast hne ∈ bases :=
      hG.2.2.2.2.2.1 kn.seq hkkey _ (List.getLast_mem hne)
    have hksplit : kn.seq.dropLast ++ [kn.seq.getLast hne] = kn.seq :=
      List.dropLast_append_getLast hne
    have hmem : kn.seq ∈ get_potential_to p := by
      rw [get_potential_to, List.mem_map]
      refine ⟨kn.seq.getLast hne, hlast, ?_⟩
      rw [← hpb]
      show kn.seq.dropLast ++ [kn.seq.getLast hne] = kn.seq
      exact hksplit
    have hG1 : GoodG (add_edge_to g pid kid) :=
      GoodG_add_edge_to g pid kid hG
        ⟨kn, hkn, by rw [hpnode, hpnseq]; exact hmem⟩
    exact GoodG_add_edge_from _ kid pid hG1

theorem GoodG_insertIfNew (g : DBGraph) (ks : Seq) (k : Nat) (hG : GoodG g)
    (hkl : g.kmerlen = some k) (hlen : ks.length = k) (hDNA : DNAseq ks) :
    GoodG (insertIfNew g ks) := by
  obtain ⟨g1, g2, g3, g4, g5, g6, g7⟩ := hG
  unfold insertIfNew
  split
  · exact ⟨g1, g2, g3, g4, g5, g6, g7⟩
  next hnew =>
    have hksnone : dGet g.nodes ks = none := by
      cases hv : dGet g.nodes ks with
      | none => rfl
      | some v => rw [hv] at hnew; simp at hnew
    have hfresh : g.nextId ∉ dKeys g.heap := fun hm =>
      absurd (g2 g.nextId hm) (lt_irrefl _)
    have hkeys : dKeys (g.heap ++ [(g.nextId, (⟨ks, [], []⟩ : DBGnode))]) =
        dKeys g.heap ++ [g.nextId] := by simp [dKeys]
    refine ⟨?_, ?_, ?_, ?_, ?_, ?_, ?_⟩
    · show (dKeys (g.heap ++ [(g.nextId, ⟨ks, [], []⟩)])).Nodup
      rw [hkeys, List.nodup_append]
      exact ⟨g1, List.nodup_singleton _, fun a ha hb => by
        rw [List.mem_singleton] at hb
        subst hb
        exact hfresh ha⟩
    · intro j hj
      show j < g.nextId + 1
      rw [hkeys, List.mem_append] at hj
      rcases hj with hj | hj
      · exact (g2 j hj).trans (by omega)
      · rw [List.mem_singleton] at hj
        omega
    · intro s i hsi
      have hsi2 : dGet (dSet g.nodes ks g.nextId) s = some i := hsi
      by_cases hs : s = ks
      · subst hs
        rw [dGet_dSet_self] at hsi2
        injection hsi2 with hi
        refine ⟨⟨s, [], []⟩, ?_, rfl⟩
        show dGet (g.heap ++ [(g.nextId, ⟨s, [], []⟩)]) i = some ⟨s, [], []⟩
        rw [← hi, dGet_append_single _ _ _ _ hfresh, if_pos rfl]
      · rw [dGet_dSet_ne _ _ _ _ hs] at hsi2
        obtain ⟨n, hn, hns⟩ := g3 s i hsi2
        exact ⟨n, dGet_append_of_some _ _ _ _ hn, hns⟩
    · intro i n hlook
      show dGet (dSet g.nodes ks g.nextId) n.seq = some i
      rcases dGet_append_cases g.heap g.nextId ⟨ks, [], []⟩ i n hfresh hlook
        with hold | ⟨hi, hn⟩
      · have hreg := g4 i n hold
        have hne2 : n.seq ≠ ks := fun he => by
          rw [he, hksnone] at hreg
          simp at hreg
        rw [dGet_dSet_ne _ _ _ _ hne2]
        exact hreg
      · subst hi
        rw [hn]
        show dGet (dSet g.nodes ks g.nextId) ks = some g.nextId
        exact dGet_dSet_self _ _ _
    · intro s hs
      rcases dKeys_dSet_sub g.nodes ks g.nextId s hs with hold | hnew2
      · exact g5 s hold
      · exact ⟨k, hkl, by rw [hnew2]; exact hlen⟩
    · intro s hs
      rcases dKeys_dSet_sub g.nodes ks g.nextId s hs with hold | hnew2
      · exact g6 s hold
      · rw [hnew2]
        exact hDNA
    · intro i n hlook
      rcases dGet_append_cases g.heap g.nextId ⟨ks, [], []⟩ i n hfresh hlook
        with hold | ⟨hi, hn⟩
      · obtain ⟨hnd, hsucc⟩ := g7 i n hold
        refine ⟨hnd, ?_⟩
        intro c hc
        obtain ⟨cn, hcn, hreg, hpot⟩ := hsucc c hc
        refine ⟨cn, dGet_append_of_some _ _ _ _ hcn, ?_, hpot⟩
        have hne2 : cn.seq ≠ ks := fun he => by
          rw [he, hksnone] at hreg
          simp at hreg
        show dGet (dSet g.nodes ks g.nextId) cn.seq = some c
        rw [dGet_dSet_ne _ _ _ _ hne2]
        exact hreg
      · rw [hn]
        exact ⟨List.nodup_nil, fun c hc => absurd hc (List.not_mem_nil c)⟩

theorem GoodG_wireTo_fold (kid : Nat) :
    ∀ (L : List Seq) (g : DBGraph), GoodG g →
      (∀ p ∈ L, p ∈ get_potential_to (getNode g kid).seq) →
      GoodG (L.foldl (fun h p => wireTo h kid p) g) ∧
      (getNode (L.foldl (fun h p => wireTo h kid p) g) kid).seq
        = (getNode g kid).seq ∧
      (L.foldl (fun h p => wireTo h kid p) g).nodes = g.nodes ∧
      (dGet (L.foldl (fun h p => wireTo h kid p) g).heap kid).isSome
        = (dGet g.heap kid).isSome := by
  intro L
  induction L with
  | nil => intro g hG _; exact ⟨hG, rfl, rfl, rfl⟩
  | cons p t ih =>
    intro g hG hL
    rw [List.foldl_cons]
    have hG1 := GoodG_wireTo g kid p hG (hL p (List.mem_cons_self _ _))
    have hrec := ih (wireTo g kid p) hG1 (fun q hq => by
      rw [wireTo_seq]
      exact hL q (List.mem_cons_of_mem _ hq))
    refine ⟨hrec.1, ?_, ?_, ?_⟩
    · rw [hrec.2.1, wireTo_seq]
    · rw [hrec.2.2.1, wireTo_nodes]
    · rw [hrec.2.2.2, heapSome_wireTo]

theorem GoodG_wireFrom_fold (kid : Nat) :
    ∀ (L : List Seq) (g : DBGraph), GoodG g →
      (dGet g.heap kid).isSome →
      (∀ p ∈ L, p ∈ get_potential_from (getNode g kid).seq) →
      GoodG (L.foldl (fun h p => wireFrom h kid p) g) := by
  intro L
  induction L with
  | nil => intro g hG _ _; exact hG
  | cons p t ih =>
    intro g hG hk hL
    rw [List.foldl_cons]
    have hG1 := GoodG_wireFrom g kid p hG hk (hL p (List.mem_cons_self _ _))
    exact ih (wireFrom g kid p) hG1 (by rw [heapSome_wireFrom]; exact hk)
      (fun q hq => by
        rw [wireFrom_seq]
        exact hL q (List.mem_cons_of_mem _ hq))

theorem GoodG_processKmer (g : DBGraph) (ks : Seq) (k : Nat) (hG : GoodG g)
    (hkl : g.kmerlen = some k) (hlen : ks.length = k) (hDNA : DNAseq ks) :
    GoodG (processKmer g ks) := by
  have hG1 : GoodG (insertIfNew g ks) := GoodG_insertIfNew g ks k hG hkl hlen hDNA
  unfold processKmer
  simp only
  split
  next kid heq =>
    obtain ⟨kn, hkn, hknseq⟩ := hG1.2.2.1 ks kid heq
    have h2 := GoodG_wireTo_fold kid
      (get_potential_to (getNode (insertIfNew g ks) kid).seq)
      (insertIfNew g ks) hG1 (fun p hp => hp)
    have hk2 : (dGet ((get_potential_to (getNode (insertIfNew g ks) kid).seq).foldl
        (fun h p => wireTo h kid p) (insertIfNew g ks)).heap kid).isSome := by
      rw [h2.2.2.2, hkn]
      rfl
    exact GoodG_wireFrom_fold kid
      (get_potential_from (getNode (insertIfNew g ks) kid).seq) _ h2.1 hk2
      (fun p hp => by rw [h2.2.1]; exact hp)
  next => exact hG1

theorem GoodG_set_kmerlen (g : DBGraph) (l : Nat) (hG : GoodG g)
    (hnone : g.kmerlen = none) : GoodG { g with kmerlen := some l } := by
  obtain ⟨g1, g2, g3, g4, g5, g6, g7⟩ := hG
  refine ⟨g1, g2, g3, g4, ?_, g6, g7⟩
  intro s hs
  obtain ⟨k, hk, _⟩ := g5 s hs
  rw [hnone] at hk
  exact absurd hk (by simp)

theorem GoodG_add_kmersGo (k : Nat) :
    ∀ (l : List Seq) (g : DBGraph), GoodG g → g.kmerlen = some k →
      (∀ s ∈ l, DNAseq s) → GoodG (add_kmersGo k g l).1 := by
  intro l
  induction l with
  | nil => intro g hG _ _; exact hG
  | cons s t ih =>
    intro g hG hkl hDNA
    unfold add_kmersGo
    by_cases hc : s.length ≠ k
    · rw [if_pos hc]
      exact hG
    · rw [if_neg hc]
      have hlen : s.length = k := not_not.mp hc
      have hG2 := GoodG_processKmer g s k hG hkl hlen
        (hDNA s (List.mem_cons_self _ _))
      exact ih _ hG2 (by rw [processKmer_kmerlen]; exact hkl)
        (fun q hq => hDNA q (List.mem_cons_of_mem _ hq))

theorem GoodG_add_kmers (g : DBGraph) (ks : List Seq) (hG : GoodG g)
    (hDNA : ∀ s ∈ ks, DNAseq s) : GoodG (add_kmers g ks).1 := by
  unfold add_kmers
  split
  · exact hG
  · cases ks with
    | nil => exact hG
    | cons f t =>
      simp only
      split
      next hnone2 =>
        have hnone : g.kmerlen = none := by
          cases hv : g.kmerlen with
          | none => rfl
          | some k0 => rw [hv] at hnone2; simp at hnone2
        exact GoodG_add_kmersGo _ (f :: t) _
          (GoodG_set_kmerlen g f.length hG hnone) rfl hDNA
      next hsome2 =>
        have hsome : ∃ k0, g.kmerlen = some k0 := by
          cases hv : g.kmerlen with
          | none => rw [hv] at hsome2; simp at hsome2
          | some k0 => exact ⟨k0, rfl⟩
        obtain ⟨k0, hk0⟩ := hsome
        exact GoodG_add_kmersGo _ (f :: t) g hG (by rw [hk0]; rfl) hDNA

theorem GoodG_empty : GoodG emptyGraph := by
  refine ⟨List.nodup_nil, ?_, ?_, ?_, ?_, ?_, ?_⟩
  · intro i hi
    exact absurd hi (List.not_mem_nil i)
  · intro s i h
    simp [dGet] at h
  · intro i n h
    simp [dGet] at h
  · intro s hs
    exact absurd hs (List.not_mem_nil s)
  · intro s hs
    exact absurd hs (List.not_mem_nil s)
  · intro i n h
    simp [dGet] at h

theorem EdgesOK_of_GoodG (g : DBGraph) (hG : GoodG g) : EdgesOK g := by
  intro j
  cases hj : dGet g.heap j with
  | none =>
    rw [getNode_absent g j hj]
    exact ⟨List.nodup_nil, by simp [dummyNode]⟩
  | some n =>
    rw [getNode_eq_of_dGet g j n hj]
    obtain ⟨hnd, hsucc⟩ := hG.2.2.2.2.2.2 j n hj
    refine ⟨hnd, ?_⟩
    have hinj : ∀ c1 ∈ dKeys n.edges_to, ∀ c2 ∈ dKeys n.edges_to,
        (getNode g c1).seq = (getNode g c2).seq → c1 = c2 := by
      intro c1 h1 c2 h2 he
      obtain ⟨cn1, hcn1, hreg1, _⟩ := hsucc c1 h1
      obtain ⟨cn2, hcn2, hreg2, _⟩ := hsucc c2 h2
      rw [getNode_eq_of_dGet g c1 cn1 hcn1,
        getNode_eq_of_dGet g c2 cn2 hcn2] at he
      rw [he] at hreg1
      have := hreg1.symm.trans hreg2
      injection this
    have hmap : ((dKeys n.edges_to).map (fun c => (getNode g c).seq)).Nodup :=
      List.Nodup.map_on hinj hnd
    have hsub : ∀ x ∈ (dKeys n.edges_to).map (fun c => (getNode g c).seq),
        x ∈ get_potential_to n.seq := by
      intro x hx
      rw [List.mem_map] at hx
      obtain ⟨c, hc, hcx⟩ := hx
      obtain ⟨cn, hcn, _, hpot⟩ := hsucc c hc
      rw [← hcx]
      show (getNode g c).seq ∈ get_potential_to n.seq
      rw [getNode_eq_of_dGet g c cn hcn]
      exact hpot
    have hle := (List.subperm_of_subset hmap hsub).length_le
    have h4 : (get_potential_to n.seq).length = 4 := by
      simp [get_potential_to, bases]
    have hlm : ((dKeys n.edges_to).map (fun c => (getNode g c).seq)).length
        = (dKeys n.edges_to).length := List.length_map _ _
    have hke : (dKeys n.edges_to).length = n.edges_to.length := List.length_map _ _
    omega

theorem doMerge_EdgesOK (g : DBGraph) (x b wb : Nat)
    (hok : EdgesOK g)
    (hsucc : (getNode g x).edges_to = [(b, wb)]) :
    EdgesOK (doMerge g x b) := by
  have hx : (dGet g.heap x).isSome := by
    cases hv : dGet g.heap x with
    | some n => rfl
    | none =>
      rw [getNode_absent g x hv] at hsucc
      simp [dummyNode] at hsucc
  intro j
  by_cases hjb : j = b
  · subst hjb
    have hcl : (getNode (doMerge g x j) j).edges_to = [] := by
      cases hbs : (dGet g.heap j).isSome
      · have hnone : dGet (doMerge g x j).heap j = none := by
          have := heapSome_doMerge g x j j
          rw [hbs] at this
          cases hv : dGet (doMerge g x j).heap j with
          | none => rfl
          | some m => rw [hv] at this; simp at this
        rw [getNode_absent _ j hnone]
        rfl
      · exact (doMerge_cleared g x j hbs).1
    rw [hcl]
    exact ⟨List.nodup_nil, by simp⟩
  · by_cases hjx : j = x
    · subst hjx
      rw [doMerge_eto_x g j b wb hx (fun he => hjb he.symm) hsucc (hok b).1]
      exact hok b
    · rw [doMerge_eto_other g x b j hjx hjb]
      exact hok j

theorem extendLoop_EdgesOK (z : Nat) :
    ∀ (fuel : Nat) (g g2 : DBGraph) (c : Nat),
      extendLoop fuel g z = some (g2, c) → EdgesOK g → EdgesOK g2 := by
  intro fuel
  induction fuel with
  | zero => intro g g2 c h; simp [extendLoop] at h
  | succ n ih =>
    intro g g2 c h hok
    unfold extendLoop at h
    cases he : extend_next g z with
    | mk g1 o =>
      rw [he] at h
      cases o with
      | none =>
        injection h with h
        have h1 : g = g2 := congrArg Prod.fst h
        rw [← h1]
        exact hok
      | some r =>
        obtain ⟨hcanz, ⟨wr, hsucc⟩, hg1⟩ := extend_next_some_inv g g1 z r he
        have hm : Option.map (fun p => (p.1, p.2 + 1))
            (extendLoop n (popNodes g1 (getNode g1 r).seq) z) = some (g2, c) := h
        cases hrec : extendLoop n (popNodes g1 (getNode g1 r).seq) z with
        | none => rw [hrec] at hm; simp at hm
        | some pr =>
          rw [hrec] at hm
          injection hm with hm
          have hokm : EdgesOK (doMerge g z r) := doMerge_EdgesOK g z r wr hok hsucc
          have hokp : EdgesOK (popNodes g1 (getNode g1 r).seq) := by
            rw [hg1]
            intro j
            exact hokm j
          have hres := ih _ pr.1 pr.2 (by rw [hrec]) hokp
          have h1 : pr.1 = g2 := congrArg Prod.fst hm
          rw [← h1]
          exact hres

theorem simplifyPass_EdgesOK :
    ∀ (order : List Nat) (g g2 : DBGraph) (c : Nat),
      simplifyPass g order = some (g2, c) → EdgesOK g → EdgesOK g2 := by
  intro order
  induction order with
  | nil =>
    intro g g2 c h hok
    rw [simplifyPass] at h
    injection h with h
    have h1 : g = g2 := congrArg Prod.fst h
    rw [← h1]
    exact hok
  | cons z rest ih =>
    intro g g2 c h hok
    unfold simplifyPass at h
    cases hl : extendLoop (edgeTot g + 1) g z with
    | none => rw [hl] at h; simp at h
    | some pr =>
      rw [hl] at h
      have hm : Option.map (fun p => (p.1, pr.2 + p.2)) (simplifyPass pr.1 rest)
          = some (g2, c) := h
      cases hp : simplifyPass pr.1 rest with
      | none => rw [hp] at hm; simp at hm
      | some qr =>
        rw [hp] at hm
        injection hm with hm
        have h1 := extendLoop_EdgesOK z _ g pr.1 pr.2 (by rw [hl]) hok
        have h2 := ih pr.1 qr.1 qr.2 (by rw [hp]) h1
        have hf : qr.1 = g2 := congrArg Prod.fst hm
        rw [← hf]
        exact h2

theorem simplify_EdgesOK (g g1 : DBGraph) (h : simplify g = some g1)
    (hok : EdgesOK g) : EdgesOK g1 := by
  unfold simplify simplifyWith at h
  cases hp : simplifyPass g (g.nodes.map Prod.snd) with
  | none => rw [hp] at h; simp at h
  | some pr =>
    rw [hp] at h
    injection h with h
    have hok2 := simplifyPass_EdgesOK (g.nodes.map Prod.snd) g pr.1 pr.2
      (by rw [hp]) hok
    rw [← h]
    intro j
    exact hok2 j

theorem add_kmersGo_simplified (k : Nat) :
    ∀ (l : List Seq) (g : DBGraph),
      (add_kmersGo k g l).1.simplified = g.simplified := by
  intro l
  induction l with
  | nil => intro g; rfl
  | cons s t ih =>
    intro g
    unfold add_kmersGo
    by_cases hc : s.length ≠ k
    · rw [if_pos hc]
    · rw [if_neg hc, ih, processKmer_simplified]

theorem add_kmers_simplified (g : DBGraph) (ks : List Seq) :
    (add_kmers g ks).1.simplified = g.simplified := by
  unfold add_kmers
  split
  · rfl
  · cases ks with
    | nil => rfl
    | cons f t =>
      simp only
      split
      · rw [add_kmersGo_simplified]
      · rw [add_kmersGo_simplified]

theorem simplify_simplified (g g1 : DBGraph) (h : simplify g = some g1) :
    g1.simplified = true := by
  unfold simplify simplifyWith at h
  cases hp : simplifyPass g (g.nodes.map Prod.snd) with
  | none => rw [hp] at h; simp at h
  | some pr =>
    rw [hp] at h
    injection h with h
    rw [← h]
    rfl

theorem reach_inv (g : DBGraph) (h : ReachDNA g) :
    (g.simplified = false ∧ GoodG g) ∨ (g.simplified = true ∧ EdgesOK g) := by
  induction h with
  | init => exact Or.inl ⟨rfl, GoodG_empty⟩
  | addStep g0 ks hr hDNA ih =>
    rcases ih with ⟨hs, hG⟩ | ⟨hs, hok⟩
    · refine Or.inl ⟨?_, GoodG_add_kmers g0 ks hG hDNA⟩
      rw [add_kmers_simplified]
      exact hs
    · refine Or.inr ⟨?_, ?_⟩
      · rw [add_kmers_simplified]
        exact hs
      · have hid : (add_kmers g0 ks).1 = g0 := by
          unfold add_kmers
          rw [if_pos hs]
        rw [hid]
        exact hok
  | simplifyStep g0 g1 hr hsimp ih =>
    refine Or.inr ⟨simplify_simplified g0 g1 hsimp, ?_⟩
    have hok0 : EdgesOK g0 := by
      rcases ih with ⟨_, hG⟩ | ⟨_, hok⟩
      · exact EdgesOK_of_GoodG g0 hG
      · exact hok
    exact simplify_EdgesOK g0 g1 hsimp hok0

theorem sum_map_le_four {β : Type} (f : β → Nat) :
    ∀ l : List β, (∀ p ∈ l, f p ≤ 4) → (l.map f).sum ≤ 4 * l.length := by
  intro l
  induction l with
  | nil => intro _; simp
  | cons a t ih =>
    intro hl
    rw [List.map_cons, List.sum_cons, List.length_cons]
    have h1 := hl a (List.mem_cons_self _ _)
    have h2 := ih (fun p hp => hl p (List.mem_cons_of_mem _ hp))
    omega

end C8Lemmas

/-! ### Claim theorems -/

/-- C1.  Functional correctness of `extend_next` under its precondition:
with sole successor `B` (id `b`), the merge sets `X.seq` to
`X.seq + B.seq[o:]` where `o = mergeOverlap g x b` is the largest
`i ∈ [1, min]` with `X.seq.endswith(B.seq[:i])` (0 if none —
`IsMaxOverlap` states exactly this, `take 0 = []` making the 0 case
uniform); removes the edge `X → B` and transfers every outgoing edge
`(C, w)` of `B` so that `X`'s outgoing dict becomes exactly `B`'s old
one, while each such `C`'s incoming dict drops its `B` entry and gains
`w` on its `X` entry; clears both of `B`'s dicts; and returns `B`.
The dict hypotheses (unique keys, allocated endpoints) hold for every
Python-reachable state, where adjacency maps are real dicts over live
objects. -/
theorem c1_extend_next_correct (g : DBGraph) (x b wb : Nat)
    (hcan : can_extend_next g x = true)
    (hsucc : (getNode g x).edges_to = [(b, wb)])
    (hnodup : (dKeys (getNode g b).edges_to).Nodup)
    (hclosed : ∀ c ∈ dKeys (getNode g b).edges_to, (dGet g.heap c).isSome) :
    (extend_next g x).2 = some b ∧
    IsMaxOverlap (getNode g x).seq (getNode g b).seq (mergeOverlap g x b) ∧
    (getNode (extend_next g x).1 x).seq =
      (getNode g x).seq ++ (getNode g b).seq.drop (mergeOverlap g x b) ∧
    (getNode (extend_next g x).1 x).edges_to = (getNode g b).edges_to ∧
    (∀ c wc, c ≠ b → dGet (getNode g b).edges_to c = some wc →
      (getNode (extend_next g x).1 c).edges_from =
        dSet (dPop (getNode g c).edges_from b) x
          ((dGet (getNode g c).edges_from x).getD 0 + wc)) ∧
    (getNode (extend_next g x).1 b).edges_to = [] ∧
    (getNode (extend_next g x).1 b).edges_from = [] := by
  obtain ⟨b1, wb1, wx, he1, hne, hf⟩ := (can_extend_next_iff g x).1 hcan
  rw [hsucc] at he1
  injection he1 with h1 h2
  injection h1 with hb1 hw1
  subst hb1
  subst hw1
  have hx : (dGet g.heap x).isSome := by
    cases ho : dGet g.heap x with
    | none =>
      rw [getNode_absent g x ho] at hsucc
      exact absurd hsucc (by simp [dummyNode])
    | some nx => rfl
  have hb : (dGet g.heap b).isSome := by
    cases ho : dGet g.heap b with
    | none =>
      rw [getNode_absent g b ho] at hf
      exact absurd hf (by simp [dummyNode])
    | some nb => rfl
  rw [extend_next_of_true g x b wb hcan hsucc]
  refine ⟨rfl, mergeOverlap_isMax g x b, doMerge_seq_x g x b hx,
    doMerge_eto_x g x b wb hx hne hsucc hnodup, ?_,
    (doMerge_cleared g x b hb).1, (doMerge_cleared g x b hb).2⟩
  intro c wc hcb hget
  exact doMerge_efrom_mem g x b c wc hcb hne hget hnodup
    (hclosed c (mem_keys_of_dGet_isSome _ _ (by rw [hget]; rfl)))

/-- Witness for C1 on the chain `AAG → AGT → GTC` (`exG4`): node 0's
merge of its sole successor node 1 satisfies every clause of the
specification (sequence `AAGT`, successor dict taken over from node 1,
node 2's incoming entry re-homed from node 1 to node 0, node 1
cleared). -/
theorem c1_extend_next_correct_witness :
    (extend_next exG4 0).2 = some 1 ∧
    (getNode (extend_next exG4 0).1 0).seq =
      (getNode exG4 0).seq ++ (getNode exG4 1).seq.drop (mergeOverlap exG4 0 1) ∧
    (getNode (extend_next exG4 0).1 0).edges_to = (getNode exG4 1).edges_to ∧
    (getNode (extend_next exG4 0).1 2).edges_from =
      dSet (dPop (getNode exG4 2).edges_from 1) 0
        ((dGet (getNode exG4 2).edges_from 0).getD 0 + 1) ∧
    (getNode (extend_next exG4 0).1 1).edges_to = [] ∧
    (getNode (extend_next exG4 0).1 1).edges_from = [] := by
  have h := c1_extend_next_correct exG4 0 1 1 (by decide) (by decide)
    (by decide) (by decide)
  exact ⟨h.1, h.2.2.1, h.2.2.2.1, h.2.2.2.2.1 2 1 (by decide) (by decide),
    h.2.2.2.2.2.1, h.2.2.2.2.2.2⟩

/-- C2.  Counterexample to "node AGG has an outgoing edge to GGG with
weight exactly 2" after ingesting r1's k-mers and then r2's k-mers:
in the second call the AGG→GGG edge is wired twice (once while
processing key AGG via its successor candidates, once while processing
key GGG via its predecessor candidates), so the weight is 3, not 2. -/
theorem c2_weight_not_two :
    dGet exG2.nodes (sq "AGG") = some 2 ∧
    dGet exG2.nodes (sq "GGG") = some 3 ∧
    ¬ dGet (getNode exG2 2).edges_to 3 = some 2 := by
  refine ⟨by decide, by decide, by decide⟩

/-- C2 (amended).  Within one `add_kmers` call each wiring action records
the edge on both endpoints together, but an ordered pair may be wired up
to twice per call — once when either endpoint is processed as a key while
the other is already present.  In the two-read scenario the AGG→GGG edge
has weight 1 after the first call and weight 3 after the second (one
increment in call 1, two increments in call 2), recorded identically on
both endpoints. -/
theorem c2_amended_weights :
    dGet (getNode exG1 2).edges_to 3 = some 1 ∧
    dGet (getNode exG1 3).edges_from 2 = some 1 ∧
    dGet (getNode exG2 2).edges_to 3 = some 3 ∧
    dGet (getNode exG2 3).edges_from 2 = some 3 := by
  refine ⟨by decide, by decide, by decide, by decide⟩

/-- C3.  Evaluating `add_kmers` at a length-mismatched key: the state
`exG4` has established k = 3 and is not simplified; ingesting a length-4
key fails immediately, but with `AttributeError` (the `raise
ValueError(... str(self.kmersize) ...)` accesses the nonexistent
attribute `kmersize`), not with the documented `ValueError`; a call whose
keys all have length 3 raises nothing. -/
theorem c3_error_eval :
    exG4.kmerlen = some 3 ∧
    exG4.simplified = false ∧
    (add_kmers exG4 [sq "AAAA"]).2 = some PyErr.attributeError ∧
    (add_kmers exG4 [sq "AAAA"]).2 ≠ some PyErr.valueError ∧
    (add_kmers exG4 [sq "TTT", sq "GTT"]).2 = none := by
  refine ⟨by decide, by decide, by decide, by decide, by decide⟩

/-- C4.  Counterexample to order-independence of `simplify`: on the chain
`AAG → AGT → GTC` (snapshot ids `[0, 1, 2]`), driving the merge loop in
snapshot order `[0, 1, 2]` yields the single contig `AAGTC`, while the
permuted order `[1, 0, 2]` leaves an extra retired node: node 1 absorbs
node 2 first (its sequence grows to `AGTC`), and when node 0 later
absorbs node 1, `self.nodes.pop(next_node.seq)` looks up the grown
sequence `AGTC` instead of the index key `AGT`, so the retired node
survives re-keying.  The final node sets differ. -/
theorem c4_order_dependent :
    exG4.nodes.map Prod.snd = [0, 1, 2] ∧
    List.Perm [0, 1, 2] [1, 0, 2] ∧
    (simplifyWith exG4 [0, 1, 2]).map (fun h => dKeys h.nodes) =
      some [sq "AAGTC"] ∧
    (simplifyWith exG4 [1, 0, 2]).map (fun h => dKeys h.nodes) =
      some [sq "AAGTC", sq "AGTC"] := by
  refine ⟨by decide, by decide, by decide, by decide⟩

/-- C5.  The symmetry invariant: if a state satisfies it (together with
the structural dict well-formedness every Python state has), then it
still holds after any `add_kmers` call — including calls that abort with
the length-mismatch error — and after any `extend_next` merge step
(including the no-op case where the precondition fails).  `Sym g` says
`A.edges_to[B]` and `B.edges_from[A]` are the same optional weight for
every pair. -/
theorem c5_symmetry_invariant (g : DBGraph) (hS : Sym g) (hW : Wf g) :
    (∀ ks : List Seq, Sym (add_kmers g ks).1) ∧
    (∀ x : Nat, Sym (extend_next g x).1) :=
  ⟨fun ks => (SymWf_add_kmers g ks hS hW).1,
   fun x => (SymWf_extend_next g x hS hW).1⟩

/-- Witness for C5: `exG4` satisfies the invariant checkers; the
symmetric weights for the pair `(0, 1)` agree after a further ingestion
call, and for the pair `(0, 2)` after node 0's merge of node 1. -/
theorem c5_symmetry_invariant_witness :
    dGet (getNode (add_kmers exG4 [sq "GTT"]).1 0).edges_to 1 =
      dGet (getNode (add_kmers exG4 [sq "GTT"]).1 1).edges_from 0 ∧
    dGet (getNode (extend_next exG4 0).1 0).edges_to 2 =
      dGet (getNode (extend_next exG4 0).1 2).edges_from 0 := by
  have h := c5_symmetry_invariant exG4
    (symChk_correct exG4 (by decide)) (wfChk_correct exG4 (by decide))
  exact ⟨h.1 [sq "GTT"] 0 1, h.2 0 0 2⟩

/-- C7.  `add_kmers` is a total function of the embedding and `simplify`
always terminates (the merge loop with fuel `edgeTot g + 1` always
completes, each merge strictly decreasing the total edge count), but the
claim's "each successful merge strictly reduces len(nodes) by one" fails:
in `exG7a` (the `[1, 0, 2]`-order pass over the `AAG → AGT → GTC` chain
after node 1 absorbed node 2), node 0's merge of node 1 succeeds and
returns the retired node, yet `self.nodes.pop(next_node.seq)` misses —
node 1's sequence has grown to `AGTC` while its index key is still
`AGT` — so `len(nodes)` stays 2. -/
theorem c7_termination_and_nondecrease :
    (∀ g : DBGraph, (simplify g).isSome) ∧
    count_nodes exG7a = 2 ∧
    (extend_next exG7a 0).2 = some 1 ∧
    (getNode (extend_next exG7a 0).1 1).seq = sq "AGTC" ∧
    count_nodes (popNodes (extend_next exG7a 0).1
      (getNode (extend_next exG7a 0).1 1).seq) = 2 := by
  refine ⟨simplify_isSome, by decide, by decide, by decide, by decide⟩

/-- C10.  Ingestion is not atomic on error.  First part: if the key list
is a length-correct prefix, then an offending key, then anything, the
call returns exactly the state obtained by ingesting the prefix alone
(every prefix k-mer inserted and wired), paired with the error, while
the prefix alone ingests without error.  Second part: on a first-ever
call the k-mer length is fixed from the first key even if a later key
aborts the call. -/
theorem c10_partial_mutation :
    (∀ (g : DBGraph) (k : Nat) (good : List Seq) (bad : Seq) (rest : List Seq),
      g.simplified = false → g.kmerlen = some k →
      (∀ s ∈ good, s.length = k) → bad.length ≠ k →
      add_kmers g (good ++ bad :: rest) =
        ((add_kmers g good).1, some PyErr.attributeError) ∧
      (add_kmers g good).2 = none) ∧
    (∀ (g : DBGraph) (first : Seq) (rest : List Seq),
      g.simplified = false → g.kmerlen = none →
      (add_kmers g (first :: rest)).1.kmerlen = some first.length) := by
  constructor
  · intro g k good bad rest h1 h2 hgood hbad
    have habort := add_kmersGo_abort k bad rest hbad good g hgood
    cases good with
    | nil =>
      rw [add_kmers_nil g]
      rw [add_kmers_eq_go g k _ h1 h2 (by simp)]
      exact ⟨by simpa using habort.1, rfl⟩
    | cons f gd =>
      rw [add_kmers_eq_go g k _ h1 h2 (by simp),
        add_kmers_eq_go g k _ h1 h2 (by simp)]
      exact habort
  · intro g first rest h1 h2
    unfold add_kmers
    rw [if_neg (by simp [h1])]
    show (add_kmersGo _ (if g.kmerlen.isNone then { g with kmerlen := some first.length } else g)
      (first :: rest)).1.kmerlen = _
    rw [add_kmersGo_kmerlen, h2]
    rfl

/-- Witness for C10 at concrete inputs: on `exG4` (k = 3, not
simplified), ingesting `[TTT, AAAA, CCC]` mutates the graph exactly as
ingesting `[TTT]` does and then fails; a first call on the empty graph
fixes k from its first key even though its second key aborts. -/
theorem c10_partial_mutation_witness :
    (add_kmers exG4 [sq "TTT", sq "AAAA", sq "CCC"] =
      ((add_kmers exG4 [sq "TTT"]).1, some PyErr.attributeError) ∧
      (add_kmers exG4 [sq "TTT"]).2 = none) ∧
    (add_kmers emptyGraph [sq "GTT", sq "AAAA"]).1.kmerlen = some 3 := by
  constructor
  · exact c10_partial_mutation.1 exG4 3 [sq "TTT"] (sq "AAAA") [sq "CCC"]
      (by decide) (by decide) (by decide) (by decide)
  · exact c10_partial_mutation.2 emptyGraph (sq "GTT") [sq "AAAA"]
      (by decide) (by decide)

/-- C6.  Evaluating `extend_prev` where its precondition holds: on the
chain `AAG → AGT` inside `exG4`, node 1 has node 0 as sole predecessor,
so `can_extend_prev` is true; the merge body then updates `self.seq` to
`AAGT` and immediately raises `AttributeError` on the misspelled
attribute `self.efroedges_fromm` instead of completing the mirror merge.
When the precondition fails (node 0 has no predecessor) the call returns
`None` with the state unchanged. -/
theorem c6_extend_prev_crashes :
    can_extend_prev exG4 1 = true ∧
    extend_prev exG4 1 = Except.error (PyErr.attributeError, exG6err) ∧
    (getNode exG6err 1).seq = sq "AAGT" ∧
    can_extend_prev exG4 0 = false ∧
    extend_prev exG4 0 = Except.ok (exG4, none) := by
  refine ⟨by decide, by rfl, by decide, by decide, by rfl⟩

/-- C9.  `simplify` is idempotent: if one run (whose merge loop we prove
always terminates, so the run is `some`) turns `g` into `g1`, a second
run returns `g1` unchanged — same node objects, sequences, adjacency and
index keys.  After the first run no surviving node can still be extended
(a merge performed on one snapshot node never enables `can_extend_next`
for another), so the second sweep performs no merge, and re-keying the
already re-keyed dict is the identity.  The hypothesis — distinct node
objects in the snapshot — holds for every Python state, where dict
values are the distinct `DBGnode` objects themselves. -/
theorem c9_simplify_idempotent (g g1 : DBGraph)
    (hnd : (g.nodes.map Prod.snd).Nodup)
    (h : simplify g = some g1) :
    simplify g1 = some g1 := by
  unfold simplify simplifyWith at h
  cases hp : simplifyPass g (g.nodes.map Prod.snd) with
  | none => rw [hp] at h; simp at h
  | some pr =>
    rw [hp] at h
    injection h with h
    subst h
    have hmem : ∀ q ∈ (rebuild pr.1).nodes,
        ∃ p ∈ pr.1.nodes, q = ((getNode pr.1 p.2).seq, p.2) := by
      intro q hq
      rcases fold_dSet_mem (fun p : Seq × Nat => ((getNode pr.1 p.2).seq, p.2))
        pr.1.nodes [] q hq with h1 | h1
      · simp at h1
      · exact h1
    have hvals1 : ∀ x ∈ (rebuild pr.1).nodes.map Prod.snd,
        x ∈ pr.1.nodes.map Prod.snd := by
      intro x hx
      rw [List.mem_map] at hx
      obtain ⟨q, hq, hqx⟩ := hx
      obtain ⟨p, hpmem, hpe⟩ := hmem q hq
      rw [List.mem_map]
      refine ⟨p, hpmem, ?v⟩
      rw [← hqx, hpe]
    have hnc : ∀ x ∈ (rebuild pr.1).nodes.map Prod.snd,
        can_extend_next (rebuild pr.1) x = false := by
      intro x hx
      have hx2 := simplifyPass_values_sub (g.nodes.map Prod.snd) g pr.1 pr.2
        (by rw [hp]) x (hvals1 x hx)
      exact simplifyPass_post (g.nodes.map Prod.snd) g pr.1 pr.2 hnd
        (by rw [hp]) x hx2
    have hpass2 : simplifyPass (rebuild pr.1) ((rebuild pr.1).nodes.map Prod.snd)
        = some (rebuild pr.1, 0) := simplifyPass_id _ _ hnc
    have hkeys : ∀ q ∈ (rebuild pr.1).nodes,
        (getNode (rebuild pr.1) q.2).seq = q.1 := by
      intro q hq
      obtain ⟨p, hpmem, hpe⟩ := hmem q hq
      rw [hpe]
      rfl
    have hnodup : (dKeys (rebuild pr.1).nodes).Nodup :=
      fold_dSet_nodupKeys (fun p : Seq × Nat => ((getNode pr.1 p.2).seq, p.2))
        pr.1.nodes [] List.nodup_nil
    have hfold : (rebuild pr.1).nodes.foldl
        (fun m p => dSet m (getNode (rebuild pr.1) p.2).seq p.2) []
        = (rebuild pr.1).nodes := by
      have h2 := fold_insert_self (rebuild pr.1) (rebuild pr.1).nodes [] hkeys
        (by simpa using hnodup)
      simpa using h2
    have hreb : rebuild (rebuild pr.1) = rebuild pr.1 := by
      show ({ rebuild pr.1 with
        nodes := (rebuild pr.1).nodes.foldl
          (fun m p => dSet m (getNode (rebuild pr.1) p.2).seq p.2) [],
        simplified := true } : DBGraph) = rebuild pr.1
      rw [hfold]
      rfl
    unfold simplify simplifyWith
    rw [hpass2]
    show some (rebuild (rebuild pr.1)) = some (rebuild pr.1)
    rw [hreb]

/-- C8.  Edge-count bound on program-reachable states (arbitrary
interleavings of `add_kmers` calls over the nucleotide alphabet of the
input contract and `simplify` runs): every node object's outgoing dict
has at most 4 entries — its keys map injectively, via the `nodes`
registry, into the 4 overlap candidates `get_potential_to` of its
sequence — and `count_edges`, which adds `len(edges_to)` (one per entry,
regardless of weight) over the `nodes` dict, is at most
`4 * count_nodes`.  The DNA restriction is essential: over a larger
alphabet a node can acquire more than 4 successors. -/
theorem c8_edge_bound (g : DBGraph) (h : ReachDNA g) :
    (∀ i : Nat, (getNode g i).edges_to.length ≤ 4) ∧
    count_edges g ≤ 4 * count_nodes g := by
  have hok : EdgesOK g := by
    rcases reach_inv g h with ⟨_, hG⟩ | ⟨_, hok⟩
    · exact EdgesOK_of_GoodG g hG
    · exact hok
  refine ⟨fun i => (hok i).2, ?_⟩
  unfold count_edges count_nodes
  exact sum_map_le_four _ g.nodes (fun p _ => (hok p.2).2)

/-- Witness for C8: the state after the two ingestion calls of the
worked example (reads r1 and r2, k = 3) satisfies the bound. -/
theorem c8_edge_bound_witness :
    count_edges exG2 ≤ 4 * count_nodes exG2 :=
  (c8_edge_bound exG2
    (ReachDNA.addStep exG1 [sq "AGG", sq "GGG", sq "GGC", sq "GCC"]
      (ReachDNA.addStep emptyGraph [sq "AAA", sq "AAG", sq "AGG", sq "GGG"]
        ReachDNA.init (by decide))
      (by decide))).2

/-- Witness for C9: on the three-k-mer chain `AAG → AGT → GTC`,
one `simplify` yields the single contig `AAGTC` and the second run
returns it unchanged. -/
theorem c9_simplify_idempotent_witness :
    ((exG4.nodes.map Prod.snd).Nodup ∧ simplify exG4 = some C9G1) ∧
      simplify C9G1 = some C9G1 :=
  ⟨⟨by decide, by rfl⟩, c9_simplify_idempotent exG4 C9G1 (by decide) (by rfl)⟩

end DBG
